import Mathlib

/-!
# Verification of the tui-measure layout core

Shallow embedding of the three core algorithms of the repository — the flex
distribution engine (`distributeSpace` in FlexRow), the scroll window
calculator (`calculateScrollState` in ScrollableList), and the ANSI-aware
text utilities (`stripAnsi`, `displayLength`, `truncateText` in text.ts) —
together with proofs and refutations of the specification's claims about
them.

Numbers are modelled as `Int` (the programs manipulate integer-valued
JavaScript numbers; `Math.floor(a / b)` is `Int.fdiv a b` for `b ≠ 0`).
Strings are modelled as `List Char`.
-/

namespace TuiMeasure

/-! ## Flex distribution engine (FlexRow `distributeSpace`) -/

/-- Configuration for a flex item (`FlexItemConfig` in FlexRow).
`squish` is used by the source only as a truthy flag, so `Bool` with
default `false` models the optional field exactly. -/
structure FlexItemConfig where
  width : Option Int := none
  flex : Option Int := none
  minWidth : Option Int := none
  maxWidth : Option Int := none
  squish : Bool := false
deriving DecidableEq, Repr

/-- Pass-2 proportional share of one flex item:
`Math.floor((available * flex) / flexTotal)` with `flex ?? 1`. -/
def share (available flexTotal : Int) (c : FlexItemConfig) : Int :=
  Int.fdiv (available * c.flex.getD 1) flexTotal

/-- The remainder loop of pass 2: walk the items left to right, handing one
extra cell to each item without a fixed width while `remaining > 0`. -/
def addRemainder : List (FlexItemConfig × Int) → Int → List Int
  | [], _ => []
  | (c, w) :: rest, rem =>
    if 0 < rem ∧ c.width = none then (w + 1) :: addRemainder rest (rem - 1)
    else w :: addRemainder rest rem

/-- Pass 3 for a single item: raise to `minWidth` when below it and not
squishable, then clamp to `maxWidth` — but, exactly as in the source, the
`maxWidth` test reads the pass-2 value `w`, not the possibly raised one. -/
def applyMinMax (c : FlexItemConfig) (w : Int) : Int :=
  let w1 :=
    match c.minWidth with
    | some mn => if w < mn ∧ c.squish = false then mn else w
    | none => w
  match c.maxWidth with
  | some mx => if mx < w then mx else w1
  | none => w1

/-- Widths after pass 2 (fixed widths verbatim; flex shares plus the
remainder loop when the pass runs, pass-1 values otherwise). -/
def pass2Widths (available flexTotal : Int) (configs : List FlexItemConfig) :
    List Int :=
  if 0 < flexTotal ∧ 0 < available then
    let ws := configs.map (fun c =>
      match c.width with
      | some w => w
      | none => share available flexTotal c)
    let rem := available -
      ((configs.filter (fun c => c.width = none)).map
        (share available flexTotal)).sum
    addRemainder (configs.zip ws) rem
  else configs.map (fun c => c.width.getD 0)

/-- `distributeSpace(total, configs, gap)` from FlexRow. -/
def distributeSpace (total : Int) (configs : List FlexItemConfig)
    (gap : Int) : List Int :=
  if configs = [] then []
  else
    let gapTotal := max 0 ((configs.length : Int) - 1) * gap
    let available0 := max 0 (total - gapTotal)
    let available := max 0 (available0 - (configs.filterMap (fun c => c.width)).sum)
    let flexTotal :=
      ((configs.filter (fun c => c.width = none)).map (fun c => c.flex.getD 1)).sum
    List.zipWith applyMinMax configs (pass2Widths available flexTotal configs)

/-! ### Basic structure lemmas for `distributeSpace` -/

theorem addRemainder_length (l : List (FlexItemConfig × Int)) (rem : Int) :
    (addRemainder l rem).length = l.length := by
  induction l generalizing rem with
  | nil => rfl
  | cons p rest ih =>
    obtain ⟨c, w⟩ := p
    simp only [addRemainder]
    split <;> simp [ih]

theorem pass2Widths_length (a f : Int) (cs : List FlexItemConfig) :
    (pass2Widths a f cs).length = cs.length := by
  unfold pass2Widths
  split
  · rw [addRemainder_length, List.length_zip, List.length_map, Nat.min_self]
  · simp

/-- `getElem?` of a `zipWith`. -/
theorem zipWith_getElem? (f : α → β → γ) :
    ∀ (as : List α) (bs : List β) (i : Nat),
      (List.zipWith f as bs)[i]? =
        match as[i]?, bs[i]? with
        | some a, some b => some (f a b)
        | _, _ => none
  | [], _, _ => by simp
  | _ :: _, [], _ => by simp
  | a :: as, b :: bs, 0 => by simp
  | a :: as, b :: bs, i + 1 => by
    simpa using zipWith_getElem? f as bs i

theorem addRemainder_getElem?_fixed :
    ∀ (l : List (FlexItemConfig × Int)) (rem : Int) (i : Nat)
      (c : FlexItemConfig) (w : Int),
      l[i]? = some (c, w) → c.width ≠ none →
      (addRemainder l rem)[i]? = some w
  | [], _, i, _, _, h, _ => by simp at h
  | (c0, w0) :: rest, rem, 0, c, w, h, hw => by
    simp only [List.getElem?_cons_zero, Option.some.injEq, Prod.mk.injEq] at h
    obtain ⟨rfl, rfl⟩ := h
    simp only [addRemainder]
    split
    · rename_i hcond
      exact absurd hcond.2 hw
    · simp
  | (c0, w0) :: rest, rem, i + 1, c, w, h, hw => by
    simp only [List.getElem?_cons_succ] at h
    simp only [addRemainder]
    split <;> simpa using addRemainder_getElem?_fixed rest _ i c w h hw

theorem pass2Widths_getElem?_fixed (a f : Int) (cs : List FlexItemConfig)
    (i : Nat) (c : FlexItemConfig) (w : Int)
    (hc : cs[i]? = some c) (hw : c.width = some w) :
    (pass2Widths a f cs)[i]? = some w := by
  unfold pass2Widths
  split
  · refine addRemainder_getElem?_fixed _ _ i c w ?_ (by simp [hw])
    rw [List.getElem?_zip_eq_some]
    refine ⟨hc, ?_⟩
    rw [List.getElem?_map, hc]
    simp [hw]
  · rw [List.getElem?_map, hc]
    simp [hw]

/-- The fixed width of an item with neither `minWidth` nor `maxWidth` is
returned verbatim (shared core of claims C5 and C10). -/
theorem distribute_fixed_at (total gap : Int) (cs : List FlexItemConfig)
    (i : Nat) (c : FlexItemConfig) (w : Int)
    (hc : cs[i]? = some c) (hw : c.width = some w)
    (hmn : c.minWidth = none) (hmx : c.maxWidth = none) :
    (distributeSpace total cs gap)[i]? = some w := by
  have hne : cs ≠ [] := by
    intro h; subst h; simp at hc
  unfold distributeSpace
  rw [if_neg hne]
  rw [zipWith_getElem?, hc, pass2Widths_getElem?_fixed _ _ cs i c w hc hw]
  simp [applyMinMax, hmn, hmx]

/-- Pass 3 keeps the width at most `maxWidth` provided a set `minWidth`
does not exceed `maxWidth` (unless squishable). -/
theorem applyMinMax_le_max (c : FlexItemConfig) (w mx : Int)
    (hmx : c.maxWidth = some mx)
    (hok : ∀ mn, c.minWidth = some mn → c.squish = true ∨ mn ≤ mx) :
    applyMinMax c w ≤ mx := by
  unfold applyMinMax
  rw [hmx]
  simp only []
  split
  · exact le_refl mx
  · rename_i hnot
    push_neg at hnot
    cases hmn : c.minWidth with
    | none => simpa using hnot
    | some mn =>
      simp only [hmn]
      split
      · rename_i hcond
        rcases hok mn hmn with hsq | hle
        · rw [hsq] at hcond
          simp at hcond
        · exact hle
      · simpa using hnot

/-! ### Sum lemmas for pass 2 (claim C4) -/

/-- For a positive `flexTotal`, the sum of the floor shares differs from
`available` scaled by at most one unit per item. -/
theorem shares_sum_bounds (a F : Int) (hF : 0 < F) :
    ∀ cs : List FlexItemConfig,
      0 ≤ a * (cs.map (fun c => c.flex.getD 1)).sum
          - F * ((cs.map (share a F)).sum) ∧
      a * (cs.map (fun c => c.flex.getD 1)).sum
          - F * ((cs.map (share a F)).sum) ≤ (cs.length : Int) * (F - 1)
  | [] => by simp
  | c :: rest => by
    obtain ⟨ih1, ih2⟩ := shares_sum_bounds a F hF rest
    have hsh : share a F c = (a * c.flex.getD 1) / F := by
      unfold share
      exact Int.fdiv_eq_ediv _ (le_of_lt hF)
    have hemod := Int.ediv_add_emod (a * c.flex.getD 1) F
    have h0 : 0 ≤ (a * c.flex.getD 1) % F := Int.emod_nonneg _ (ne_of_gt hF)
    have h1 : (a * c.flex.getD 1) % F < F := Int.emod_lt_of_pos _ hF
    simp only [List.map_cons, List.sum_cons, List.length_cons, hsh]
    push_cast
    constructor <;> nlinarith

theorem addRemainder_sum :
    ∀ (l : List (FlexItemConfig × Int)) (rem : Int), 0 ≤ rem →
      rem ≤ ((l.filter (fun p => p.1.width = none)).length : Int) →
      (addRemainder l rem).sum = (l.map Prod.snd).sum + rem
  | [], rem, h0, h1 => by
    simp only [List.filter_nil, List.length_nil] at h1
    simp only [addRemainder, List.map_nil, List.sum_nil]
    omega
  | (c, w) :: rest, rem, h0, h1 => by
    simp only [addRemainder]
    split
    · rename_i hcond
      have : (addRemainder rest (rem - 1)).sum
          = (rest.map Prod.snd).sum + (rem - 1) := by
        refine addRemainder_sum rest (rem - 1) (by omega) ?_
        have : (List.filter (fun p => p.1.width = none) ((c, w) :: rest)).length
            ≤ (List.filter (fun p => p.1.width = none) rest).length + 1 := by
          rw [List.filter_cons]
          split <;> simp
        omega
      simp only [List.sum_cons, List.map_cons, this]
      ring
    · rename_i hcond
      have hrem : rem = 0 ∨ c.width ≠ none := by
        by_cases h : 0 < rem
        · right; intro hw; exact hcond ⟨h, hw⟩
        · left; omega
      have hfil : ((List.filter (fun p => p.1.width = none) ((c, w) :: rest)).length : Int)
          ≤ (List.filter (fun p => p.1.width = none) rest).length + 1 := by
        rw [List.filter_cons]
        split <;> simp
      have : (addRemainder rest rem).sum = (rest.map Prod.snd).sum + rem := by
        refine addRemainder_sum rest rem h0 ?_
        rcases hrem with h | h
        · subst h; positivity
        · rw [List.filter_cons] at h1
          have : ¬ (decide (c.width = none) = true) := by simpa using h
          simp only [this] at h1
          simpa using h1
      simp only [List.sum_cons, List.map_cons, this]
      ring

/-- An item that only sets `flex` (no fixed width, no min/max constraints). -/
def FlexOnly (c : FlexItemConfig) : Prop :=
  c.width = none ∧ c.minWidth = none ∧ c.maxWidth = none

theorem applyMinMax_none (c : FlexItemConfig) (w : Int)
    (hmn : c.minWidth = none) (hmx : c.maxWidth = none) :
    applyMinMax c w = w := by
  simp [applyMinMax, hmn, hmx]

theorem zipWith_applyMinMax_noConstraint :
    ∀ (cs : List FlexItemConfig) (ws : List Int),
      (∀ c ∈ cs, c.minWidth = none ∧ c.maxWidth = none) →
      cs.length = ws.length →
      List.zipWith applyMinMax cs ws = ws
  | [], [], _, _ => rfl
  | [], _ :: _, _, hl => by simp at hl
  | _ :: _, [], _, hl => by simp at hl
  | c :: cs, w :: ws, h, hl => by
    have hc := h c (by simp)
    simp only [List.zipWith_cons_cons, applyMinMax_none c w hc.1 hc.2]
    rw [zipWith_applyMinMax_noConstraint cs ws
      (fun x hx => h x (by simp [hx])) (by simpa using hl)]

theorem zip_filter_none_length :
    ∀ (cs : List FlexItemConfig) (ws : List Int),
      (∀ c ∈ cs, c.width = none) → cs.length = ws.length →
      ((cs.zip ws).filter (fun p => p.1.width = none)).length = cs.length
  | [], [], _, _ => rfl
  | [], _ :: _, _, hl => by simp at hl
  | _ :: _, [], _, hl => by simp at hl
  | c :: cs, w :: ws, h, hl => by
    have hc : c.width = none := h c (by simp)
    have ih := zip_filter_none_length cs ws (fun x hx => h x (by simp [hx]))
      (by simpa using hl)
    simp [List.zip_cons_cons, List.filter_cons, hc, ih]

/-! ### Claim C4 -/

/-- **C4, counterexample.** An item list whose only member sets `flex: 0` is
flex-only, `total = 5 ≥ 0 = gap×(|items|−1)`, yet `flexTotal = 0` disables
pass 2 and the result sums to `0`, not `max 0 total = 5`. -/
theorem claim_C4_counterexample :
    (distributeSpace 5 [{ flex := some 0 }] 0).sum
        + ((1 : Int) - 1) * 0 ≠ max 0 5 := by decide

/-- **C4 (amended).** For a non-empty all-flex-only list whose flex weights
(default 1) have positive sum, with `gap ≥ 0` and `total ≥ gap×(|items|−1)`,
the distributed widths sum to `max 0 total − gap×(|items|−1)`. (The claim
as stated fails when the flex weights sum to 0, which disables pass 2.) -/
theorem claim_C4_amended (total gap : Int) (cs : List FlexItemConfig)
    (hne : cs ≠ []) (hfo : ∀ c ∈ cs, FlexOnly c) (hgap : 0 ≤ gap)
    (htot : ((cs.length : Int) - 1) * gap ≤ total)
    (hF : 0 < (cs.map (fun c => c.flex.getD 1)).sum) :
    (distributeSpace total cs gap).sum + ((cs.length : Int) - 1) * gap
      = max 0 total := by
  have hn1 : 1 ≤ (cs.length : Int) := by
    have : cs.length ≠ 0 := by simpa using hne
    omega
  have hmax1 : max 0 ((cs.length : Int) - 1) = (cs.length : Int) - 1 := by omega
  have hgt : 0 ≤ ((cs.length : Int) - 1) * gap :=
    mul_nonneg (by omega) hgap
  have htot0 : 0 ≤ total := le_trans hgt htot
  have hfm : cs.filterMap (fun c => c.width) = [] := by
    rw [List.filterMap_eq_nil_iff]
    exact fun c hc => (hfo c hc).1
  have hfil : cs.filter (fun c => c.width = none) = cs := by
    rw [List.filter_eq_self]
    exact fun c hc => by simp [(hfo c hc).1]
  have hwnone : ∀ c ∈ cs, c.width = none := fun c hc => (hfo c hc).1
  have hnomm : ∀ c ∈ cs, c.minWidth = none ∧ c.maxWidth = none :=
    fun c hc => ⟨(hfo c hc).2.1, (hfo c hc).2.2⟩
  simp only [distributeSpace, if_neg hne, hfm, List.sum_nil, sub_zero, hmax1]
  have hA : max 0 (max 0 (total - ((cs.length : Int) - 1) * gap))
      = total - ((cs.length : Int) - 1) * gap := by omega
  rw [hA]
  set a := total - ((cs.length : Int) - 1) * gap with ha
  set F := ((cs.filter (fun c => c.width = none)).map
    (fun c => c.flex.getD 1)).sum with hFdef
  have hFeq : F = (cs.map (fun c => c.flex.getD 1)).sum := by
    rw [hFdef, hfil]
  unfold pass2Widths
  by_cases hApos : 0 < a
  · rw [if_pos ⟨by rw [hFeq]; exact hF, hApos⟩]
    set ws := cs.map (fun c =>
      match c.width with
      | some w => w
      | none => share a F c) with hws
    have hwseq : ws = cs.map (share a F) := by
      rw [hws]
      refine List.map_congr_left (fun c hc => ?_)
      rw [hwnone c hc]
    have hlen : cs.length = ws.length := by simp [hws]
    set S := ((cs.filter (fun c => c.width = none)).map (share a F)).sum
      with hS
    have hSeq : S = (cs.map (share a F)).sum := by rw [hS, hfil]
    obtain ⟨hb1, hb2⟩ := shares_sum_bounds a F (hFeq ▸ hF) cs
    have hFa : a * (cs.map (fun c => c.flex.getD 1)).sum
        - F * ((cs.map (share a F)).sum) = F * (a - S) := by
      rw [hSeq, ← hFeq]; ring
    have hrem0 : 0 ≤ a - S := by
      have h0 : F * 0 ≤ F * (a - S) := by rw [← hFa]; simpa using hb1
      exact le_of_mul_le_mul_left h0 (hFeq ▸ hF)
    have hremlt : a - S < (cs.length : Int) := by
      have h2 : F * (a - S) ≤ (cs.length : Int) * F - (cs.length : Int) := by
        rw [← hFa]
        calc a * (cs.map (fun c => c.flex.getD 1)).sum
              - F * ((cs.map (share a F)).sum)
            ≤ (cs.length : Int) * (F - 1) := hb2
          _ = (cs.length : Int) * F - (cs.length : Int) := by ring
      have h3 : F * (a - S) < F * (cs.length : Int) := by
        have : (0 : Int) < (cs.length : Int) := by omega
        nlinarith
      exact lt_of_mul_lt_mul_left h3 (le_of_lt (hFeq ▸ hF))
    rw [zipWith_applyMinMax_noConstraint cs _ hnomm
      (by rw [addRemainder_length, List.length_zip, ← hlen, Nat.min_self])]
    rw [addRemainder_sum _ _ hrem0
      (by rw [zip_filter_none_length cs ws hwnone hlen]; omega)]
    have hmz : (List.map Prod.snd (cs.zip ws)).sum = S := by
      rw [List.map_snd_zip cs ws (le_of_eq hlen.symm), hwseq, hSeq]
    rw [hmz]
    omega
  · rw [if_neg (fun h => hApos h.2)]
    have hz : (cs.map (fun c => c.width.getD 0)).sum = 0 := by
      refine List.sum_eq_zero (fun x hx => ?_)
      obtain ⟨c, hc, rfl⟩ := List.mem_map.mp hx
      rw [hwnone c hc]
      rfl
    rw [zipWith_applyMinMax_noConstraint cs _ hnomm (by simp)]
    rw [hz]
    omega

/-- **C4, witness inputs.** -/
theorem claim_C4_witness :
    (distributeSpace 100 [{ flex := some 1 }, { flex := some 1 },
        { flex := some 1 }] 1).sum + ((3 : Int) - 1) * 1 = max 0 100 := by
  refine claim_C4_amended 100 1
    [{ flex := some 1 }, { flex := some 1 }, { flex := some 1 }]
    (by decide) ?_ (by decide) (by decide) (by decide)
  intro c hc
  fin_cases hc <;> exact ⟨rfl, rfl, rfl⟩

/-! ### Claims C5, C6, C8, C10 -/

/-- Pointwise relation under which `distributeSpace` cannot distinguish two
configurations: the allocation reads `flex` only when `width` is unset and
`squish` only when `minWidth` is set. -/
def CfgEquiv (c c' : FlexItemConfig) : Prop :=
  c.width = c'.width ∧ c.minWidth = c'.minWidth ∧ c.maxWidth = c'.maxWidth ∧
  (c.width = none → c.flex = c'.flex) ∧
  (c.minWidth ≠ none → c.squish = c'.squish)

theorem cfgEquiv_refl (c : FlexItemConfig) : CfgEquiv c c :=
  ⟨rfl, rfl, rfl, fun _ => rfl, fun _ => rfl⟩

theorem cfgEquiv_flexSum {cs cs' : List FlexItemConfig}
    (h : List.Forall₂ CfgEquiv cs cs') :
    (cs.filter (fun c => c.width = none)).map (fun c => c.flex.getD 1)
      = (cs'.filter (fun c => c.width = none)).map (fun c => c.flex.getD 1) := by
  induction h with
  | nil => rfl
  | cons hr _ ih =>
    rename_i c c' cs cs' _
    simp only [List.filter_cons]
    rw [hr.1]
    split
    · rename_i hcond
      have hn : c'.width = none := by simpa using hcond
      simp only [List.map_cons, ih]
      rw [hr.2.2.2.1 (hr.1.trans hn)]
    · exact ih

theorem cfgEquiv_filterMap {cs cs' : List FlexItemConfig}
    (h : List.Forall₂ CfgEquiv cs cs') :
    cs.filterMap (fun c => c.width) = cs'.filterMap (fun c => c.width) := by
  induction h with
  | nil => rfl
  | cons hr _ ih =>
    simp only [List.filterMap_cons]
    rw [hr.1, ih]

theorem cfgEquiv_shareMap {cs cs' : List FlexItemConfig} (a F : Int)
    (h : List.Forall₂ CfgEquiv cs cs') :
    (cs.filter (fun c => c.width = none)).map (share a F)
      = (cs'.filter (fun c => c.width = none)).map (share a F) := by
  induction h with
  | nil => rfl
  | cons hr _ ih =>
    rename_i c c' cs cs' _
    simp only [List.filter_cons]
    rw [hr.1]
    split
    · rename_i hcond
      have hn : c'.width = none := by simpa using hcond
      simp only [List.map_cons, ih]
      have : share a F c = share a F c' := by
        unfold share
        rw [hr.2.2.2.1 (hr.1.trans hn)]
      rw [this]
    · exact ih

theorem cfgEquiv_wsMap {cs cs' : List FlexItemConfig} (a F : Int)
    (h : List.Forall₂ CfgEquiv cs cs') :
    cs.map (fun c => match c.width with
      | some w => w
      | none => share a F c)
      = cs'.map (fun c => match c.width with
      | some w => w
      | none => share a F c) := by
  induction h with
  | nil => rfl
  | cons hr _ ih =>
    rename_i c c' cs cs' _
    simp only [List.map_cons, ih]
    have : (match c.width with
        | some w => w
        | none => share a F c)
        = (match c'.width with
        | some w => w
        | none => share a F c') := by
      cases hn : c'.width with
      | some w => rw [hr.1, hn]
      | none =>
        rw [hr.1, hn]
        unfold share
        rw [hr.2.2.2.1 (hr.1.trans hn)]
    rw [this]

theorem cfgEquiv_addRemainder :
    ∀ {cs cs' : List FlexItemConfig}, List.Forall₂ CfgEquiv cs cs' →
      ∀ (ws : List Int) (rem : Int),
      addRemainder (cs.zip ws) rem = addRemainder (cs'.zip ws) rem := by
  intro cs cs' h
  induction h with
  | nil => intro ws rem; rfl
  | cons hr _ ih =>
    rename_i c c' cs cs' _
    intro ws rem
    cases ws with
    | nil => rfl
    | cons w ws =>
      simp only [List.zip_cons_cons, addRemainder, hr.1]
      split
      · exact congrArg (List.cons (w + 1)) (ih ws (rem - 1))
      · exact congrArg (List.cons w) (ih ws rem)

theorem cfgEquiv_applyMinMax {c c' : FlexItemConfig} (hr : CfgEquiv c c')
    (w : Int) : applyMinMax c w = applyMinMax c' w := by
  unfold applyMinMax
  rw [hr.2.1, hr.2.2.1]
  cases hn : c'.minWidth with
  | none => rfl
  | some mn =>
    have : c.squish = c'.squish := hr.2.2.2.2 (by rw [hr.2.1, hn]; simp)
    rw [this]

theorem cfgEquiv_getDMap {cs cs' : List FlexItemConfig}
    (h : List.Forall₂ CfgEquiv cs cs') :
    cs.map (fun c => c.width.getD 0) = cs'.map (fun c => c.width.getD 0) := by
  induction h with
  | nil => rfl
  | cons hr _ ih => simp only [List.map_cons, hr.1, ih]

theorem cfgEquiv_zipWithMinMax :
    ∀ {cs cs' : List FlexItemConfig}, List.Forall₂ CfgEquiv cs cs' →
      ∀ ws : List Int,
      List.zipWith applyMinMax cs ws = List.zipWith applyMinMax cs' ws := by
  intro cs cs' h
  induction h with
  | nil => intro ws; rfl
  | cons hr _ ih =>
    rename_i c c' cs cs' _
    intro ws
    cases ws with
    | nil => rfl
    | cons w ws =>
      simp only [List.zipWith_cons_cons, cfgEquiv_applyMinMax hr w, ih]

/-- `distributeSpace` is invariant under `CfgEquiv`. -/
theorem distribute_congr {cs cs' : List FlexItemConfig}
    (h : List.Forall₂ CfgEquiv cs cs') (total gap : Int) :
    distributeSpace total cs gap = distributeSpace total cs' gap := by
  have hlen : cs.length = cs'.length := h.length_eq
  by_cases hne : cs = []
  · subst hne
    cases h
    rfl
  have hne' : cs' ≠ [] := by
    intro hx; subst hx; cases h; exact hne rfl
  simp only [distributeSpace, if_neg hne, if_neg hne', hlen,
    cfgEquiv_filterMap h]
  have hflex := cfgEquiv_flexSum h
  unfold pass2Widths
  rw [hflex]
  split
  · rw [cfgEquiv_shareMap _ _ h, cfgEquiv_wsMap _ _ h, cfgEquiv_addRemainder h,
      cfgEquiv_zipWithMinMax h]
  · rw [cfgEquiv_zipWithMinMax h, cfgEquiv_getDMap h]

theorem forall₂_cfgEquiv_self : ∀ l : List FlexItemConfig,
    List.Forall₂ CfgEquiv l l
  | [] => List.Forall₂.nil
  | c :: l => List.Forall₂.cons (cfgEquiv_refl c) (forall₂_cfgEquiv_self l)

theorem forall₂_cfgEquiv_set :
    ∀ (cs : List FlexItemConfig) (i : Nat) (c c' : FlexItemConfig),
      cs[i]? = some c → CfgEquiv c' c →
      List.Forall₂ CfgEquiv (cs.set i c') cs
  | [], i, c, c', h, _ => by simp at h
  | x :: xs, 0, c, c', h, hr => by
    simp only [List.getElem?_cons_zero, Option.some.injEq] at h
    subst h
    exact List.Forall₂.cons hr (forall₂_cfgEquiv_self xs)
  | x :: xs, i + 1, c, c', h, hr => by
    simp only [List.getElem?_cons_succ] at h
    simpa [List.set] using
      List.Forall₂.cons (cfgEquiv_refl x) (forall₂_cfgEquiv_set xs i c c' h hr)

/-- **C5, counterexample.** A fixed width of 5 combined with `maxWidth: 3`
is clamped by pass 3 to `[3]`, so `maxWidth` is not ignored for an item
with an explicit `width`. -/
theorem claim_C5_counterexample :
    distributeSpace 10 [{ width := some 5, maxWidth := some 3 }] 0 ≠ [5] := by
  decide

/-- **C5 (amended).** An item with an explicit `width` is excluded from
flex distribution: changing its `flex` changes no output entry,
unconditionally; changing its `squish` changes no output entry when the
item sets no `minWidth` (with a `minWidth` set, `squish` gates the pass-3
raise and does matter); and the item receives exactly its fixed width when
it sets neither `minWidth` nor `maxWidth` (contrary to the claim, pass 3
still applies a set `minWidth`/`maxWidth` to fixed-width items). -/
theorem claim_C5_amended (total gap : Int) (cs : List FlexItemConfig)
    (i : Nat) (c : FlexItemConfig) (w : Int) (f' : Option Int) (sq' : Bool)
    (hc : cs[i]? = some c) (hw : c.width = some w) :
    distributeSpace total (cs.set i { c with flex := f' }) gap
      = distributeSpace total cs gap ∧
    (c.minWidth = none →
      distributeSpace total (cs.set i { c with squish := sq' }) gap
        = distributeSpace total cs gap) ∧
    (c.minWidth = none → c.maxWidth = none →
      (distributeSpace total cs gap)[i]? = some w) := by
  refine ⟨?_, fun hmn => ?_, fun hmn hmx =>
    distribute_fixed_at total gap cs i c w hc hw hmn hmx⟩
  · refine distribute_congr (forall₂_cfgEquiv_set cs i c _ hc ?_) total gap
    refine ⟨rfl, rfl, rfl, fun hnone => ?_, fun _ => rfl⟩
    rw [hw] at hnone
    cases hnone
  · refine distribute_congr (forall₂_cfgEquiv_set cs i c _ hc ?_) total gap
    exact ⟨rfl, rfl, rfl, fun _ => rfl, fun hmn' => absurd hmn hmn'⟩

/-- **C5, witness.** -/
theorem claim_C5_witness :
    distributeSpace 100
        [{ width := some 30, flex := some 7 }, { flex := some 1 }] 0
      = distributeSpace 100
        [{ width := some 30, flex := some 2 }, { flex := some 1 }] 0 ∧
    distributeSpace 100
        [{ width := some 30, flex := some 2, squish := true },
          { flex := some 1 }] 0
      = distributeSpace 100
        [{ width := some 30, flex := some 2 }, { flex := some 1 }] 0 ∧
    (distributeSpace 100
        [{ width := some 30, flex := some 2 }, { flex := some 1 }] 0)[0]?
      = some 30 := by
  have h := claim_C5_amended 100 0
    [{ width := some 30, flex := some 2 }, { flex := some 1 }] 0
    { width := some 30, flex := some 2 } 30 (some 7) true
    rfl rfl
  exact ⟨h.1, h.2.1 rfl, h.2.2 rfl rfl⟩

/-- **C6, counterexample.** With `minWidth: 10 > maxWidth: 7`, the pass-2
width 5 is raised to 10 by the `minWidth` branch, and the `maxWidth` test
(which reads the pass-2 value 5, not the raised one) does not fire: the
returned width 10 exceeds `maxWidth`. -/
theorem claim_C6_counterexample :
    (distributeSpace 5
        [{ flex := some 1, minWidth := some 10, maxWidth := some 7 }] 0)[0]?
      = some 10 ∧ ¬ (10 : Int) ≤ 7 := by decide

/-- **C6 (amended).** The `maxWidth` clamp bounds the returned width
provided the item's `minWidth`, when set and not squishable, does not exceed
`maxWidth`; it is not unconditional, since the clamp tests the pass-2 value
and a larger `minWidth` raise applied first can escape it. -/
theorem claim_C6_amended (total gap : Int) (cs : List FlexItemConfig)
    (i : Nat) (c : FlexItemConfig) (mx : Int)
    (hc : cs[i]? = some c) (hmx : c.maxWidth = some mx)
    (hok : ∀ mn, c.minWidth = some mn → c.squish = true ∨ mn ≤ mx) :
    ∃ v, (distributeSpace total cs gap)[i]? = some v ∧ v ≤ mx := by
  have hne : cs ≠ [] := by
    intro h; subst h; simp at hc
  have hilt : i < cs.length := by
    by_contra hge
    rw [List.getElem?_eq_none (by omega)] at hc
    cases hc
  have hws : ∃ wi, (pass2Widths
      (max 0 (max 0 (total - max 0 ((cs.length : Int) - 1) * gap)
        - (cs.filterMap (fun c => c.width)).sum))
      (((cs.filter (fun c => c.width = none)).map (fun c => c.flex.getD 1)).sum)
      cs)[i]? = some wi := by
    rw [List.getElem?_eq_getElem (by rw [pass2Widths_length]; omega)]
    exact ⟨_, rfl⟩
  obtain ⟨wi, hwi⟩ := hws
  refine ⟨applyMinMax c wi, ?_, applyMinMax_le_max c wi mx hmx hok⟩
  unfold distributeSpace
  rw [if_neg hne, zipWith_getElem?, hc, hwi]

/-- **C6, witness.** -/
theorem claim_C6_witness :
    ∃ v, (distributeSpace 100
        [{ flex := some 1, maxWidth := some 20 }, { flex := some 1 }] 0)[0]?
      = some v ∧ v ≤ 20 := by
  refine claim_C6_amended 100 0
    [{ flex := some 1, maxWidth := some 20 }, { flex := some 1 }] 0
    { flex := some 1, maxWidth := some 20 } 20 rfl rfl ?_
  intro mn hmn
  cases hmn

/-- **C8, counterexample.** A negative gap is not treated as 0: with
`total = 10` and `gap = -5` between two flex items the allocation becomes
`[8, 7]` (the negative gap adds 5 to the available space), while `gap = 0`
yields `[5, 5]`. -/
theorem claim_C8_counterexample :
    distributeSpace 10 [{ flex := some 1 }, { flex := some 1 }] (-5)
      ≠ distributeSpace 10 [{ flex := some 1 }, { flex := some 1 }] 0 := by
  decide

/-- **C8 (amended).** The gap enters the computation only through the
available-space budget: `distributeSpace total cs gap` equals
`distributeSpace (total − max 0 (|cs|−1) × gap) cs 0` for every gap, so a
NEGATIVE gap enlarges the space available for allocation by
`|gap| × (|cs|−1)` instead of behaving as gap 0. -/
theorem claim_C8_amended (total gap : Int) (cs : List FlexItemConfig) :
    distributeSpace total cs gap
      = distributeSpace (total - max 0 ((cs.length : Int) - 1) * gap) cs 0 := by
  unfold distributeSpace
  by_cases hne : cs = []
  · rw [if_pos hne, if_pos hne]
  · rw [if_neg hne, if_neg hne]
    norm_num

/-- **C10.** An item with an explicit `width` and neither `minWidth` nor
`maxWidth` receives exactly that width, whatever the value (negative values
and values exceeding `total` included), so the output can contain negative
entries. -/
theorem claim_C10 (total gap : Int) (cs : List FlexItemConfig)
    (i : Nat) (c : FlexItemConfig) (w : Int)
    (hc : cs[i]? = some c) (hw : c.width = some w)
    (hmn : c.minWidth = none) (hmx : c.maxWidth = none) :
    (distributeSpace total cs gap)[i]? = some w :=
  distribute_fixed_at total gap cs i c w hc hw hmn hmx

/-- **C10, witness**: a fixed width of −3 passes through verbatim, making
the output list contain a negative entry. -/
theorem claim_C10_witness :
    (distributeSpace 10 [{ width := some (-3) }] 0)[0]? = some (-3) :=
  claim_C10 10 0 [{ width := some (-3) }] 0 { width := some (-3) } (-3)
    rfl rfl rfl rfl

/-! ## Scroll window calculator (ScrollableList `calculateScrollState`) -/

/-- Result of a scroll calculation (`ScrollState` in ScrollableList).
`visible` pairs each shown item with its index. -/
structure ScrollState (α : Type) where
  visible : List (α × Int)
  scrollOffset : Int
  overflowTop : Int
  overflowBottom : Int
deriving Repr, DecidableEq

/-- JavaScript `Array.prototype.slice(s, e)` on integer arguments:
negative positions count from the end, then both are clamped to the
array bounds. -/
def jsSlice {α : Type} (l : List α) (s e : Int) : List α :=
  let n : Int := l.length
  let s1 := if s < 0 then max (n + s) 0 else min s n
  let e1 := if e < 0 then max (n + e) 0 else min e n
  (l.drop s1.toNat).take (e1 - s1).toNat

/-- `list[i] ?? d` for an integer index. -/
def jsGetD (l : List Int) (i : Int) (d : Int) : Int :=
  if 0 ≤ i then l.getD i.toNat d else d

/-- `.map((item, i) => ({item, index: base + i}))`. -/
def tagFrom {α : Type} (base : Int) : List α → List (α × Int)
  | [] => []
  | a :: l => (a, base) :: tagFrom (base + 1) l

/-- The `heights` array of the variable-height branch:
`items.map((item, i) => getItemHeight(item, i) + gap)`. -/
def heightsFrom {α : Type} (gih : α → Int → Int) (gap : Int) :
    List α → Int → List Int
  | [], _ => []
  | a :: l, i => (gih a i + gap) :: heightsFrom gih gap l (i + 1)

/-- The common result shape of both windowing branches:
`visible = items.slice(so, endI)` re-indexed from `so`, overflow counts
`so` above and `max 0 (n − endI)` below. -/
def mkRes {α : Type} (items : List α) (n so endI : Int) : ScrollState α :=
  ⟨tagFrom so (jsSlice items so endI), so, so, max 0 (n - endI)⟩

/-- The first loop of the variable-height branch: find the first index at
which the cumulative height reaches `targetScrollTop`, else the list
length.  The JS comparison `cumulativeHeight >= heightBefore -
(availableHeight - selectedHeight) / 2` divides exactly by 2 in floating
point; on integer inputs it equals `2*cum ≥ target2` with
`target2 = 2*heightBefore - (availableHeight - selectedHeight)`, which is
the form used here. -/
def findOffset (target2 : Int) : List Int → Int → Int → Int
  | [], i, _ => i
  | h :: rest, i, cum2 =>
    if target2 ≤ cum2 then i
    else findOffset target2 rest (i + 1) (cum2 + 2 * h)

/-- The forward growth loop of the variable-height branch (it appears three
times verbatim in the source): starting at `i` with `usedHeight = used`,
admit item `i` while `used + itemH ≤ effH − reserve`, where one indicator
row is reserved while items remain below.  `fuel` counts the remaining
iterations (`n − i`). -/
def growGo (heights : List Int) (n indH effH : Int) :
    Nat → Int → Int → Int → Int
  | 0, _, _, endIdx => endIdx
  | fuel + 1, i, used, endIdx =>
    let itemH := jsGetD heights i 1
    let reserve := if i + 1 < n then indH else 0
    if used + itemH ≤ effH - reserve then
      growGo heights n indH effH fuel (i + 1) (used + itemH) (i + 1)
    else endIdx

def growEnd (heights : List Int) (n indH effH so : Int) : Int :=
  growGo heights n indH effH (n - so).toNat so 0 so

/-- The backward loop of the variable-height branch: pull `scrollOffset`
back from `safeSel` while earlier items still fit. -/
def backGo (heights : List Int) (effH : Int) :
    Nat → Int → Int → Int → Int
  | 0, _, _, so => so
  | fuel + 1, i, used, so =>
    let h := jsGetD heights i 0
    if used + h ≤ effH then backGo heights effH fuel (i - 1) (used + h) i
    else so

/-- The core of `calculateVariableHeightScrollState` after the all-fit
check, as a function of `safeSelectedIndex`. -/
def varCore {α : Type} (items : List α) (heights : List Int)
    (avail indH safeSel : Int) : ScrollState α :=
  let n : Int := items.length
  let selH := jsGetD heights safeSel 1
  let hb := (heights.take safeSel.toNat).sum
  let target2 := 2 * hb - (avail - selH)
  let so1 := max 0 (min (findOffset target2 heights 0 0) (n - 1))
  let eff1 := avail - (if 0 < so1 then indH else 0)
  let end1 := growEnd heights n indH eff1 so1
  if safeSel < so1 then
    let eff2 := avail - (if 0 < safeSel then indH else 0)
    mkRes items n safeSel (growEnd heights n indH eff2 safeSel)
  else if end1 ≤ safeSel then
    let effB := avail - indH - (if safeSel + 1 < n then indH else 0)
    let so3 := backGo heights effB safeSel.toNat (safeSel - 1)
      (jsGetD heights safeSel 1) safeSel
    let eff3 := avail - (if 0 < so3 then indH else 0)
    mkRes items n so3 (growEnd heights n indH eff3 so3)
  else mkRes items n so1 end1

/-- `calculateVariableHeightScrollState` from ScrollableList. -/
def calcVar {α : Type} (items : List α) (sel avail gap indH : Int)
    (gih : α → Int → Int) : ScrollState α :=
  let heights := heightsFrom gih gap items 0
  if heights.sum < avail then ⟨tagFrom 0 items, 0, 0, 0⟩
  else varCore items heights avail indH (min sel ((items.length : Int) - 1))

/-- Centering of the window on the selected index followed by the clamp to
`[0, n − mv]`: `Math.min(Math.max(0, sel - floor(mv/2)), n - mv)`. -/
def centerOff (sel n mv : Int) : Int :=
  min (max 0 (sel - Int.fdiv mv 2)) (n - mv)

/-- The recomputation of `maxVisible` and `scrollOffset` performed when an
overflow indicator is present, once the provisional offset `so1` has decided
which indicators will actually be shown. -/
def fixedPass2 (n avail eff indH so1 mv1 sel : Int) : Int × Int :=
  let actualSpace := (if 0 < so1 then indH else 0)
    + (if so1 + mv1 < n then indH else 0)
  let mv := max 1 (Int.fdiv (avail - actualSpace) eff)
  (centerOff sel n mv, mv)

/-- The pair `(scrollOffset, maxVisible)` of the fixed-height branch, as a
function of `selectedIndex`. -/
def fixedCore (n avail eff indH : Int) (hasInd : Bool) (sel : Int) :
    Int × Int :=
  let mv1 := max 1 (Int.fdiv (avail - indH * 2) eff)
  let so1 := centerOff sel n mv1
  if hasInd then fixedPass2 n avail eff indH so1 mv1 sel
  else (so1, mv1)

/-- The fixed-height branch of `calculateScrollState`. -/
def calcFixed {α : Type} (items : List α) (sel avail itemH gap : Int)
    (hasInd : Bool) : ScrollState α :=
  let n : Int := items.length
  let indH : Int := if hasInd then 1 else 0
  let eff := itemH + gap
  if n ≤ Int.fdiv avail eff then ⟨tagFrom 0 items, 0, 0, 0⟩
  else
    let p := fixedCore n avail eff indH hasInd sel
    mkRes items n p.1 (p.1 + p.2)

/-- `calculateScrollState` from ScrollableList.  `gih` is the optional
`getItemHeight` callback selecting the variable-height branch. -/
def calculateScrollState {α : Type} (items : List α)
    (sel avail itemH gap : Int) (hasInd : Bool)
    (gih : Option (α → Int → Int)) : ScrollState α :=
  if items.isEmpty then ⟨[], 0, 0, 0⟩
  else
    match gih with
    | some f => calcVar items sel avail gap (if hasInd then 1 else 0) f
    | none => calcFixed items sel avail itemH gap hasInd

/-! ### Structure lemmas for the scroll calculator -/

/-- The contiguous ascending integer range `[s, s+k)`. -/
def intRange (s : Int) : Nat → List Int
  | 0 => []
  | k + 1 => s :: intRange (s + 1) k

theorem intRange_mem (x : Int) : ∀ (k : Nat) (s : Int),
    x ∈ intRange s k ↔ s ≤ x ∧ x < s + k
  | 0, s => by simp [intRange]
  | k + 1, s => by
    simp only [intRange, List.mem_cons, intRange_mem x k (s + 1)]
    push_cast
    omega

theorem tagFrom_length {α : Type} : ∀ (l : List α) (b : Int),
    (tagFrom b l).length = l.length
  | [], _ => rfl
  | _ :: l, b => by simp [tagFrom, tagFrom_length l]

theorem tagFrom_map_snd {α : Type} : ∀ (l : List α) (b : Int),
    (tagFrom b l).map Prod.snd = intRange b l.length
  | [], _ => rfl
  | _ :: l, b => by simp [tagFrom, intRange, tagFrom_map_snd l]

theorem jsSlice_of_bounds {α : Type} (l : List α) (s e : Int)
    (h0 : 0 ≤ s) (h1 : s ≤ e) (h2 : e ≤ l.length) :
    (jsSlice l s e).length = (e - s).toNat := by
  unfold jsSlice
  have hs : ¬ s < 0 := by omega
  have he : ¬ e < 0 := by omega
  simp only [if_neg hs, if_neg he]
  have hmins : min s (l.length : Int) = s := by omega
  have hmine : min e (l.length : Int) = e := by omega
  rw [hmins, hmine, List.length_take, List.length_drop]
  omega

theorem jsSlice_full {α : Type} (l : List α) :
    jsSlice l 0 (l.length : Int) = l := by
  unfold jsSlice
  have h : ¬ ((l.length : Int) < 0) := by omega
  have h0 : ¬ ((0 : Int) < 0) := by omega
  simp only [if_neg h, if_neg h0]
  have hm0 : min (0 : Int) (l.length : Int) = 0 := by omega
  have hmn : min (l.length : Int) (l.length : Int) = l.length := by omega
  rw [hm0, hmn]
  simp

/-- Everything claim C1 needs about a `mkRes` window with sane bounds. -/
theorem mkRes_invariants {α : Type} (items : List α) (so endI : Int)
    (h0 : 0 ≤ so) (h1 : so ≤ endI) (h2 : endI ≤ items.length) :
    let r := mkRes items items.length so endI
    r.overflowTop + (r.visible.length : Int) + r.overflowBottom
        = items.length ∧
    r.visible.map Prod.snd = intRange r.scrollOffset r.visible.length ∧
    r.scrollOffset = so := by
  have hlen : (mkRes items items.length so endI).visible.length
      = (endI - so).toNat := by
    unfold mkRes
    rw [tagFrom_length, jsSlice_of_bounds items so endI h0 h1 h2]
  refine ⟨?_, ?_, rfl⟩
  · simp only [mkRes, hlen]
    rw [tagFrom_length, jsSlice_of_bounds items so endI h0 h1 h2]
    omega
  · simp only [mkRes]
    rw [tagFrom_map_snd, tagFrom_length, jsSlice_of_bounds items so endI h0 h1 h2]

/-- The all-fit result is the `mkRes` window covering the whole list. -/
theorem allFit_eq_mkRes {α : Type} (items : List α) :
    (⟨tagFrom 0 items, 0, 0, 0⟩ : ScrollState α)
      = mkRes items items.length 0 items.length := by
  unfold mkRes
  rw [jsSlice_full]
  simp

theorem growGo_bounds (heights : List Int) (n indH effH : Int) :
    ∀ (fuel : Nat) (i used endIdx : Int),
      endIdx ≤ i → (fuel : Int) = n - i →
      endIdx ≤ growGo heights n indH effH fuel i used endIdx ∧
      growGo heights n indH effH fuel i used endIdx ≤ n
  | 0, i, used, endIdx, he, hf => by
    simp only [growGo]
    omega
  | fuel + 1, i, used, endIdx, he, hf => by
    have ih := growGo_bounds heights n indH effH fuel (i + 1)
      (used + jsGetD heights i 1) (i + 1) (le_refl _)
      (by push_cast at hf ⊢; omega)
    simp only [growGo]
    split <;> split <;> omega

theorem growEnd_bounds (heights : List Int) (n indH effH so : Int)
    (h : so ≤ n) :
    so ≤ growEnd heights n indH effH so ∧
    growEnd heights n indH effH so ≤ n := by
  unfold growEnd
  exact growGo_bounds heights n indH effH (n - so).toNat so 0 so (le_refl _)
    (by omega)

theorem backGo_bounds (heights : List Int) (effH : Int) :
    ∀ (fuel : Nat) (i used so : Int),
      (i : Int) = (fuel : Int) - 1 → i < so → 0 ≤ so →
      0 ≤ backGo heights effH fuel i used so ∧
      backGo heights effH fuel i used so ≤ so
  | 0, i, used, so, hf, hi, hs => by
    simp only [backGo]
    omega
  | fuel + 1, i, used, so, hf, hi, hs => by
    simp only [backGo]
    split
    · have := backGo_bounds heights effH fuel (i - 1)
        (used + jsGetD heights i 0) i (by push_cast at hf ⊢; omega)
        (by omega) (by push_cast at hf; omega)
      omega
    · omega

/-- The variable-height core always produces a window
`mkRes items n so endI` with `0 ≤ so ≤ endI ≤ n`. -/
theorem varCore_shape {α : Type} (items : List α) (heights : List Int)
    (avail indH safeSel : Int)
    (h0 : 0 ≤ safeSel) (h1 : safeSel ≤ (items.length : Int) - 1) :
    ∃ so endI, 0 ≤ so ∧ so ≤ endI ∧ endI ≤ (items.length : Int) ∧
      varCore items heights avail indH safeSel
        = mkRes items items.length so endI := by
  have hbk : ∀ eff u : Int,
      0 ≤ backGo heights eff safeSel.toNat (safeSel - 1) u safeSel ∧
      backGo heights eff safeSel.toNat (safeSel - 1) u safeSel ≤ safeSel :=
    fun eff u => backGo_bounds heights eff safeSel.toNat (safeSel - 1) u
      safeSel (by omega) (by omega) h0
  have hge : ∀ eff so : Int, so ≤ (items.length : Int) →
      so ≤ growEnd heights (items.length : Int) indH eff so ∧
      growEnd heights (items.length : Int) indH eff so ≤ (items.length : Int) :=
    fun eff so h => growEnd_bounds heights _ indH eff so h
  simp only [varCore]
  split_ifs <;>
    refine ⟨_, _, ?_, ?_, ?_, rfl⟩ <;>
    first
      | omega
      | exact (hbk _ _).1
      | exact (hge _ _ (by omega)).1
      | exact (hge _ _ (le_trans (hbk _ _).2 (by omega))).1
      | exact (hge _ _ (by omega)).2
      | exact (hge _ _ (le_trans (hbk _ _).2 (by omega))).2

/-! ### Fixed-height branch lemmas -/

theorem fdiv_half_facts (mv : Int) (h : 1 ≤ mv) :
    0 ≤ Int.fdiv mv 2 ∧ Int.fdiv mv 2 ≤ mv - 1 := by
  rw [Int.fdiv_eq_ediv _ (by norm_num)]
  omega

theorem mv_le_n {avail eff x n : Int} (heff : 1 ≤ eff) (hx : 0 ≤ x)
    (hn : 1 ≤ n) (hnm : Int.fdiv avail eff < n) :
    max 1 (Int.fdiv (avail - x) eff) ≤ n := by
  have h1 : Int.fdiv (avail - x) eff ≤ Int.fdiv avail eff := by
    rw [Int.fdiv_eq_ediv _ (by omega), Int.fdiv_eq_ediv _ (by omega)]
    exact Int.ediv_le_ediv (by omega) (by omega)
  omega

theorem centerOff_mem (sel n mv : Int) (hmv : 1 ≤ mv) (hmvn : mv ≤ n) :
    0 ≤ centerOff sel n mv ∧ centerOff sel n mv + mv ≤ n ∧
    (0 ≤ sel → sel < n →
      centerOff sel n mv ≤ sel ∧ sel < centerOff sel n mv + mv) := by
  obtain ⟨h0, h1⟩ := fdiv_half_facts mv hmv
  unfold centerOff
  omega

/-- Centering is insensitive to clamping the selected index into
`[0, n)`. -/
theorem centerOff_clamp (sel n mv : Int) (hmv : 1 ≤ mv) (hn : 1 ≤ n) :
    centerOff sel n mv = centerOff (max 0 (min sel (n - 1))) n mv := by
  obtain ⟨h0, h1⟩ := fdiv_half_facts mv hmv
  unfold centerOff
  omega

theorem fixedPass2_spec (n avail eff indH so1 mv1 sel : Int)
    (heff : 1 ≤ eff) (hn : 1 ≤ n) (hnm : Int.fdiv avail eff < n)
    (hind : 0 ≤ indH) :
    0 ≤ (fixedPass2 n avail eff indH so1 mv1 sel).1 ∧
    1 ≤ (fixedPass2 n avail eff indH so1 mv1 sel).2 ∧
    (fixedPass2 n avail eff indH so1 mv1 sel).1
      + (fixedPass2 n avail eff indH so1 mv1 sel).2 ≤ n ∧
    (0 ≤ sel → sel < n →
      (fixedPass2 n avail eff indH so1 mv1 sel).1 ≤ sel ∧
      sel < (fixedPass2 n avail eff indH so1 mv1 sel).1
        + (fixedPass2 n avail eff indH so1 mv1 sel).2) := by
  have has : 0 ≤ (if 0 < so1 then indH else 0)
      + (if so1 + mv1 < n then indH else 0) := by
    split_ifs <;> omega
  have hmv : 1 ≤ max 1 (Int.fdiv (avail - ((if 0 < so1 then indH else 0)
      + (if so1 + mv1 < n then indH else 0))) eff) := le_max_left _ _
  have hmvn := mv_le_n heff has hn hnm
  have hco := centerOff_mem sel n _ hmv hmvn
  simp only [fixedPass2]
  exact ⟨hco.1, hmv, hco.2.1, hco.2.2⟩

theorem fixedCore_spec (n avail eff indH : Int) (hasInd : Bool) (sel : Int)
    (heff : 1 ≤ eff) (hn : 1 ≤ n) (hnm : Int.fdiv avail eff < n)
    (hind : 0 ≤ indH) :
    0 ≤ (fixedCore n avail eff indH hasInd sel).1 ∧
    1 ≤ (fixedCore n avail eff indH hasInd sel).2 ∧
    (fixedCore n avail eff indH hasInd sel).1
      + (fixedCore n avail eff indH hasInd sel).2 ≤ n ∧
    (0 ≤ sel → sel < n →
      (fixedCore n avail eff indH hasInd sel).1 ≤ sel ∧
      sel < (fixedCore n avail eff indH hasInd sel).1
        + (fixedCore n avail eff indH hasInd sel).2) := by
  have hmv1 : 1 ≤ max 1 (Int.fdiv (avail - indH * 2) eff) := le_max_left _ _
  have hmv1n : max 1 (Int.fdiv (avail - indH * 2) eff) ≤ n :=
    mv_le_n heff (by positivity) hn hnm
  have hco1 := centerOff_mem sel n _ hmv1 hmv1n
  cases hasInd with
  | true =>
    simp only [fixedCore, if_true]
    exact fixedPass2_spec n avail eff indH _ _ sel heff hn hnm hind
  | false =>
    simp only [fixedCore, Bool.false_eq_true, if_false]
    exact ⟨hco1.1, hmv1, hco1.2.1, hco1.2.2⟩

/-- The fixed-height branch of `calculateScrollState` is a sane window. -/
theorem calcFixed_shape {α : Type} (items : List α)
    (sel avail itemH gap : Int) (hasInd : Bool)
    (heff : 1 ≤ itemH + gap) (hne : items ≠ []) :
    ∃ so endI, 0 ≤ so ∧ so ≤ endI ∧ endI ≤ (items.length : Int) ∧
      calcFixed items sel avail itemH gap hasInd
        = mkRes items items.length so endI ∧
      (0 ≤ sel → sel < (items.length : Int) → so ≤ sel ∧ sel < endI) := by
  have hn : 1 ≤ (items.length : Int) := by
    have : items.length ≠ 0 := by simpa using hne
    omega
  simp only [calcFixed]
  split
  · exact ⟨0, (items.length : Int), le_refl 0, by omega, le_refl _,
      allFit_eq_mkRes items, fun h0 h1 => ⟨h0, h1⟩⟩
  · rename_i hnm
    obtain ⟨h1, h2, h3, h4⟩ := fixedCore_spec (items.length : Int) avail
      (itemH + gap) (if hasInd then 1 else 0) hasInd sel heff hn (by omega)
      (by split_ifs <;> omega)
    exact ⟨_, _, h1, by omega, h3, rfl,
      fun ha hb => ⟨(h4 ha hb).1, (h4 ha hb).2⟩⟩

theorem fixedPass2_clamp (n avail eff indH so1 mv1 sel : Int)
    (hn : 1 ≤ n) :
    fixedPass2 n avail eff indH so1 mv1 sel
      = fixedPass2 n avail eff indH so1 mv1 (max 0 (min sel (n - 1))) := by
  simp only [fixedPass2]
  rw [centerOff_clamp sel n
    (max 1 (Int.fdiv (avail - ((if 0 < so1 then indH else 0)
      + (if so1 + mv1 < n then indH else 0))) eff)) (le_max_left _ _) hn]

theorem fixedCore_clamp (n avail eff indH : Int) (hasInd : Bool) (sel : Int)
    (hn : 1 ≤ n) :
    fixedCore n avail eff indH hasInd sel
      = fixedCore n avail eff indH hasInd (max 0 (min sel (n - 1))) := by
  cases hasInd with
  | true =>
    simp only [fixedCore, if_true]
    rw [centerOff_clamp sel n (max 1 (Int.fdiv (avail - indH * 2) eff))
      (le_max_left _ _) hn]
    exact fixedPass2_clamp n avail eff indH _ _ sel hn
  | false =>
    simp only [fixedCore, Bool.false_eq_true, if_false]
    rw [centerOff_clamp sel n (max 1 (Int.fdiv (avail - indH * 2) eff))
      (le_max_left _ _) hn]

theorem calcFixed_clamp {α : Type} (items : List α)
    (sel avail itemH gap : Int) (hasInd : Bool) (hne : items ≠ []) :
    calcFixed items sel avail itemH gap hasInd
      = calcFixed items (max 0 (min sel ((items.length : Int) - 1)))
          avail itemH gap hasInd := by
  have hn : 1 ≤ (items.length : Int) := by
    have : items.length ≠ 0 := by simpa using hne
    omega
  simp only [calcFixed]
  rw [fixedCore_clamp (items.length : Int) avail (itemH + gap)
    (if hasInd then 1 else 0) hasInd sel hn]

theorem calcVar_clamp {α : Type} (items : List α)
    (sel avail gap indH : Int) (gih : α → Int → Int)
    (hne : items ≠ []) (hsel : 0 ≤ sel) :
    calcVar items sel avail gap indH gih
      = calcVar items (max 0 (min sel ((items.length : Int) - 1)))
          avail gap indH gih := by
  have hn : 1 ≤ (items.length : Int) := by
    have : items.length ≠ 0 := by simpa using hne
    omega
  simp only [calcVar]
  have hsafe : min sel ((items.length : Int) - 1)
      = min (max 0 (min sel ((items.length : Int) - 1)))
          ((items.length : Int) - 1) := by omega
  conv_lhs => rw [hsafe]

/-! ### Claims C1, C2, C7 -/

/-- The window invariants of claim C1 in their amended form: the overflow
counts and the visible count partition the list, the visible indices are a
contiguous ascending range, the scroll offset is the index of the first
visible entry when there is one and 0 for an empty input list. -/
def scrollInvariant {α : Type} (items : List α) (r : ScrollState α) : Prop :=
  r.overflowTop + (r.visible.length : Int) + r.overflowBottom
      = (items.length : Int) ∧
  r.visible.map Prod.snd = intRange r.scrollOffset r.visible.length ∧
  (∀ p, r.visible.head? = some p → r.scrollOffset = p.2) ∧
  (items = [] → r.scrollOffset = 0)

theorem head_of_mapRange {α : Type} (r : ScrollState α)
    (h : r.visible.map Prod.snd = intRange r.scrollOffset r.visible.length) :
    ∀ p, r.visible.head? = some p → r.scrollOffset = p.2 := by
  intro p hp
  cases hv : r.visible with
  | nil => rw [hv] at hp; cases hp
  | cons q rest =>
    rw [hv] at hp h
    simp only [List.head?_cons, Option.some.injEq] at hp
    subst hp
    simp only [List.map_cons, List.length_cons, intRange,
      List.cons.injEq] at h
    exact h.1.symm

theorem isEmpty_false_of_ne {α : Type} (items : List α) (h : items ≠ []) :
    ¬ (items.isEmpty = true) := by
  simp [List.isEmpty_iff, h]

/-- **C1, counterexample.** With variable heights `[5, 5]`, 3 rows of space
and item 1 selected, the window comes back empty with `scrollOffset = 1`,
not `0` as the claim's "and 0 otherwise" clause requires. -/
theorem claim_C1_counterexample :
    (calculateScrollState [(10 : Int), 20] 1 3 1 0 false
      (some (fun _ _ => 5))).visible = [] ∧
    (calculateScrollState [(10 : Int), 20] 1 3 1 0 false
      (some (fun _ _ => 5))).scrollOffset = 1 := by decide

/-- **C1 (amended).** With `itemHeight + gap ≥ 1` in the fixed-height branch
and `selectedIndex ≥ 0` in the variable-height branch, the window satisfies
`overflowTop + |visible| + overflowBottom = |items|`, its indices are
contiguous and ascending, `scrollOffset` is the first visible index when
`visible` is non-empty, and it is 0 for an empty items list.  (When
`visible` is empty but `items` is not — possible with variable heights —
`scrollOffset` can be non-zero; and a negative `selectedIndex` in the
variable-height branch can even break the overflow sum.) -/
theorem claim_C1_amended {α : Type} (items : List α)
    (sel avail itemH gap : Int) (hasInd : Bool)
    (gih : Option (α → Int → Int))
    (hfix : gih = none → 1 ≤ itemH + gap)
    (hvar : ∀ f, gih = some f → 0 ≤ sel) :
    scrollInvariant items
      (calculateScrollState items sel avail itemH gap hasInd gih) := by
  by_cases hempty : items = []
  · subst hempty
    simp only [calculateScrollState, List.isEmpty_nil, if_true]
    exact ⟨by simp, by simp [intRange], by intro p hp; simp at hp,
      fun _ => rfl⟩
  · have hn1 : 1 ≤ (items.length : Int) := by
      have : items.length ≠ 0 := by simpa using hempty
      omega
    unfold calculateScrollState
    rw [if_neg (isEmpty_false_of_ne items hempty)]
    cases gih with
    | none =>
      obtain ⟨so, endI, h0, h1, h2, heq, _⟩ :=
        calcFixed_shape items sel avail itemH gap hasInd (hfix rfl) hempty
      rw [heq]
      obtain ⟨i1, i2, i3⟩ := mkRes_invariants items so endI h0 h1 h2
      exact ⟨i1, i2, head_of_mapRange _ i2, fun h => absurd h hempty⟩
    | some f =>
      simp only [calcVar]
      split
      · rw [allFit_eq_mkRes items]
        obtain ⟨i1, i2, i3⟩ := mkRes_invariants items 0 (items.length : Int)
          (le_refl 0) (by omega) (le_refl _)
        exact ⟨i1, i2, head_of_mapRange _ i2, fun h => absurd h hempty⟩
      · obtain ⟨so, endI, h0, h1, h2, heq⟩ :=
          varCore_shape items (heightsFrom f gap items 0) avail
            (if hasInd then 1 else 0)
            (min sel ((items.length : Int) - 1))
            (by have := hvar f rfl; omega) (by omega)
        rw [heq]
        obtain ⟨i1, i2, i3⟩ := mkRes_invariants items so endI h0 h1 h2
        exact ⟨i1, i2, head_of_mapRange _ i2, fun h => absurd h hempty⟩

/-- **C1, witness inputs** (fixed-height branch, window case). -/
theorem claim_C1_witness :
    scrollInvariant [(5 : Int), 6, 7]
      (calculateScrollState [(5 : Int), 6, 7] 1 2 1 0 true none) :=
  claim_C1_amended [(5 : Int), 6, 7] 1 2 1 0 true none
    (fun _ => by norm_num) (fun f hf => nomatch hf)

/-- **C2, counterexample.** In the variable-height branch a selected item
taller than the available height yields an empty `visible`, which therefore
does not contain the in-range `selectedIndex = 0`. -/
theorem claim_C2_counterexample :
    (calculateScrollState [(10 : Int)] 0 3 1 0 false
      (some (fun _ _ => 5))).visible = [] := by decide

/-- **C2 (amended).** In the fixed-height branch (`itemHeight + gap ≥ 1`),
for `0 ≤ selectedIndex < |items|` the visible window contains an entry with
index `selectedIndex` (in particular it is non-empty).  In the
variable-height branch this fails: the window can be empty when the selected
item's height exceeds the available space. -/
theorem claim_C2_amended {α : Type} (items : List α)
    (sel avail itemH gap : Int) (hasInd : Bool)
    (heff : 1 ≤ itemH + gap) (h0 : 0 ≤ sel)
    (h1 : sel < (items.length : Int)) :
    ∃ p ∈ (calculateScrollState items sel avail itemH gap hasInd
      none).visible, p.2 = sel := by
  have hempty : items ≠ [] := by
    intro h; subst h; simp at h1; omega
  unfold calculateScrollState
  rw [if_neg (isEmpty_false_of_ne items hempty)]
  obtain ⟨so, endI, hb0, hb1, hb2, heq, hcont⟩ :=
    calcFixed_shape items sel avail itemH gap hasInd heff hempty
  rw [heq]
  obtain ⟨hs1, hs2⟩ := hcont h0 h1
  obtain ⟨i1, i2, i3⟩ := mkRes_invariants items so endI hb0 hb1 hb2
  have hlen : ((mkRes items items.length so endI).visible.length : Int)
      = endI - so := by
    have hot : (mkRes items items.length so endI).overflowTop = so := rfl
    have hob : (mkRes items items.length so endI).overflowBottom
        = max 0 ((items.length : Int) - endI) := rfl
    omega
  have hmem : sel ∈ (mkRes items items.length so endI).visible.map
      Prod.snd := by
    rw [i2, i3, intRange_mem]
    omega
  obtain ⟨p, hp, hps⟩ := List.mem_map.mp hmem
  exact ⟨p, hp, hps⟩

/-- **C2, witness inputs.** -/
theorem claim_C2_witness :
    ∃ p ∈ (calculateScrollState [(5 : Int), 6, 7, 8, 9] 2 3 1 0 true
      none).visible, p.2 = 2 :=
  claim_C2_amended [(5 : Int), 6, 7, 8, 9] 2 3 1 0 true (by norm_num)
    (by norm_num) (by norm_num)

/-- **C7, counterexample.** In the variable-height branch a negative
`selectedIndex` is NOT clamped below (`safeSelectedIndex = min(sel, n−1)`
only caps from above): with heights `[5, 5]` and 3 rows, `sel = −1` yields
`scrollOffset = −1` while the clamped `sel = 0` yields `scrollOffset = 0`. -/
theorem claim_C7_counterexample :
    calculateScrollState [(10 : Int), 20] (-1) 3 1 0 false
        (some (fun _ _ => 5))
      ≠ calculateScrollState [(10 : Int), 20] 0 3 1 0 false
        (some (fun _ _ => 5)) := by decide

/-- **C7 (amended).** The fixed-height branch clamps any out-of-range
`selectedIndex` (negative values included) into `[0, |items|)` before
windowing; the variable-height branch does so only for `selectedIndex ≥ 0`
(indices above the range are capped to `|items| − 1`), while negative values
escape the clamp and can change the result. -/
theorem claim_C7_amended {α : Type} (items : List α)
    (sel avail itemH gap : Int) (hasInd : Bool)
    (gih : Option (α → Int → Int)) (hne : items ≠ [])
    (h : gih = none ∨ 0 ≤ sel) :
    calculateScrollState items sel avail itemH gap hasInd gih
      = calculateScrollState items
          (max 0 (min sel ((items.length : Int) - 1)))
          avail itemH gap hasInd gih := by
  unfold calculateScrollState
  rw [if_neg (isEmpty_false_of_ne items hne),
    if_neg (isEmpty_false_of_ne items hne)]
  cases gih with
  | none => exact calcFixed_clamp items sel avail itemH gap hasInd hne
  | some f =>
    rcases h with h | hsel
    · cases h
    · exact calcVar_clamp items sel avail gap _ f hne hsel

/-- **C7, witness inputs** (fixed-height branch, `sel = 10` beyond a
3-element list). -/
theorem claim_C7_witness :
    calculateScrollState [(1 : Int), 2, 3] 10 5 1 0 true none
      = calculateScrollState [(1 : Int), 2, 3]
          (max 0 (min 10 ((3 : Int) - 1))) 5 1 0 true none :=
  claim_C7_amended [(1 : Int), 2, 3] 10 5 1 0 true none (by decide)
    (Or.inl rfl)

/-! ## ANSI-aware text utilities (text.ts) -/

/-- `[^\x1b]` as a Boolean predicate. -/
def notEsc (c : Char) : Bool := !(c == '\x1b')

/-- SGR parameter characters, the class `[0-9;:]`. -/
def isClassChar (c : Char) : Bool := c.isDigit || c == ';' || c == ':'

/-- Match the first `ANSI_REGEX` alternative `\x1b\[[0-9;:]*m` at the head
of the string; on success returns the matched sequence and the rest. -/
def matchSGR : List Char → Option (List Char × List Char)
  | c1 :: c2 :: rest =>
    if c1 = '\x1b' ∧ c2 = '[' then
      match rest.dropWhile isClassChar with
      | c3 :: rest2 =>
        if c3 = 'm' then
          some ('\x1b' :: '[' :: (rest.takeWhile isClassChar ++ ['m']), rest2)
        else none
      | [] => none
    else none
  | _ => none

/-- Match the second `ANSI_REGEX` alternative `\x1b\]8;;[^\x1b]*\x1b\\` at
the head of the string.  The payload class excludes `\x1b`, so the greedy
run is the maximal escape-free prefix and the match is deterministic. -/
def matchOSC8 : List Char → Option (List Char × List Char)
  | c1 :: c2 :: c3 :: c4 :: c5 :: rest =>
    if c1 = '\x1b' ∧ c2 = ']' ∧ c3 = '8' ∧ c4 = ';' ∧ c5 = ';' then
      match rest.dropWhile notEsc with
      | d1 :: d2 :: rest2 =>
        if d1 = '\x1b' ∧ d2 = '\\' then
          some ('\x1b' :: ']' :: '8' :: ';' :: ';' ::
            (rest.takeWhile notEsc ++ ['\x1b', '\\']), rest2)
        else none
      | _ => none
    else none
  | _ => none

/-- One step of the regex scan: try the alternatives in order at the
current position. -/
def tryMatch (s : List Char) : Option (List Char × List Char) :=
  match matchSGR s with
  | some r => some r
  | none => matchOSC8 s

/-- The global regex scan of `String.replace(ANSI_REGEX, "")`: walk left to
right, deleting each leftmost match and keeping other characters.  `fuel`
bounds the number of steps; every step consumes at least one character, so
`s.length` fuel always suffices. -/
def stripGo : Nat → List Char → List Char
  | 0, s => s
  | _ + 1, [] => []
  | fuel + 1, c :: rest =>
    match tryMatch (c :: rest) with
    | some (_, r) => stripGo fuel r
    | none => c :: stripGo fuel rest

/-- `stripAnsi` from text.ts. -/
def stripAnsi (s : List Char) : List Char := stripGo s.length s

/-- Modelled from the spec: the per-character terminal cell width supplied
by the external `string-width` dependency (spec §4.2, not part of src/):
control characters are zero-width, wide CJK/Hangul/compat-ideograph/emoji
codepoints occupy two cells, everything else one. -/
def charWidth (c : Char) : Int :=
  if c.toNat < 0x20 then 0
  else if (0x1100 ≤ c.toNat ∧ c.toNat ≤ 0x115F)
      ∨ (0x2E80 ≤ c.toNat ∧ c.toNat ≤ 0xA4CF)
      ∨ (0xAC00 ≤ c.toNat ∧ c.toNat ≤ 0xD7A3)
      ∨ (0xF900 ≤ c.toNat ∧ c.toNat ≤ 0xFAFF)
      ∨ (0x1F300 ≤ c.toNat ∧ c.toNat ≤ 0x1FAFF)
      ∨ (0x20000 ≤ c.toNat ∧ c.toNat ≤ 0x3FFFD) then 2
  else 1

/-- `displayLength` from text.ts: the summed cell widths of the stripped
string (the `string-width` behaviour per spec §4.2). -/
def displayLength (s : List Char) : Int := ((stripAnsi s).map charWidth).sum

/-- The OSC-8 opener prefix `\x1b]8;;` tested by `startsWith`. -/
def osc8Head : List Char := ['\x1b', ']', '8', ';', ';']

/-- The hyperlink close sequence `\x1b]8;;\x1b\\`. -/
def closeSeq : List Char := ['\x1b', ']', '8', ';', ';', '\x1b', '\\']

/-- The style reset `\x1b[0m` appended before the ellipsis. -/
def resetSeq : List Char := ['\x1b', '[', '0', 'm']

/-- State of the truncation scan: the emitted output so far (`body`), the
plain characters among it (`kept`, each of which bumped `displayCount`),
the final `displayCount`, and the `inHyperlink` flag. -/
structure TruncState where
  body : List Char
  kept : List Char
  count : Int
  inHyp : Bool
deriving Repr, DecidableEq

/-- The `while (textPos < text.length && displayCount < targetWidth)` loop
of `truncateText`: at an ANSI match, re-emit the sequence and update the
hyperlink flag exactly as the source does (any OSC-8 match has length > 6
and the right prefix, so the close-detecting `else if` is dead code);
otherwise copy one character and count one cell. -/
def truncGo (target : Int) : Nat → List Char → Int → Bool → TruncState
  | 0, _, count, hyp => ⟨[], [], count, hyp⟩
  | _ + 1, [], count, hyp => ⟨[], [], count, hyp⟩
  | fuel + 1, c :: rest, count, hyp =>
    if count < target then
      match tryMatch (c :: rest) with
      | some (m, r) =>
        let hyp1 := if m.take 5 = osc8Head ∧ 6 < m.length then true
          else if m = closeSeq then false else hyp
        let s := truncGo target fuel r count hyp1
        ⟨m ++ s.body, s.kept, s.count, s.inHyp⟩
      | none =>
        let s := truncGo target fuel rest (count + 1) hyp
        ⟨c :: s.body, c :: s.kept, s.count, s.inHyp⟩
    else ⟨[], [], count, hyp⟩

/-- `truncateText` from text.ts. -/
def truncateText (text : List Char) (width : Int) (ellipsis : List Char) :
    List Char :=
  if displayLength text ≤ width then text
  else
    let target := max 0 (width - displayLength ellipsis)
    let s := truncGo target text.length text 0 false
    s.body ++ (if s.inHyp then closeSeq else []) ++ resetSeq ++ ellipsis

/-! ### takeWhile / dropWhile toolkit -/

theorem mem_takeWhile {p : Char → Bool} :
    ∀ {l : List Char} {x : Char}, x ∈ l.takeWhile p → p x = true := by
  intro l
  induction l with
  | nil => intro x h; simp at h
  | cons a t ih =>
    intro x h
    rw [List.takeWhile_cons] at h
    by_cases ha : p a = true
    · rw [if_pos ha] at h
      rcases List.mem_cons.mp h with rfl | h
      · exact ha
      · exact ih h
    · rw [if_neg ha] at h
      simp at h

theorem takeDrop_exact {p : Char → Bool} (ps : List Char) (x : Char)
    (X : List Char) (hps : ∀ c ∈ ps, p c = true) (hx : p x = false) :
    (ps ++ x :: X).takeWhile p = ps ∧ (ps ++ x :: X).dropWhile p = x :: X := by
  constructor
  · rw [List.takeWhile_append_of_pos hps, List.takeWhile_cons, hx]
    simp
  · rw [List.dropWhile_append_of_pos hps, List.dropWhile_cons, hx]
    simp

/-- A prefix `take j xs` either consists purely of `p`-characters, or it
contains the same first `p`-violating character as `xs` itself, followed by
a prefix of the remainder. -/
theorem take_split (p : Char → Bool) : ∀ (j : Nat) (xs : List Char),
    (∀ c ∈ xs.take j, p c = true) ∨
    ∃ l₁ a l₂ l₃, xs = l₁ ++ a :: l₂ ∧ xs.take j = l₁ ++ a :: l₃ ∧
      (∀ c ∈ l₁, p c = true) ∧ p a = false ∧ ∃ j2, l₃ = l₂.take j2
  | 0, xs => Or.inl (by simp)
  | j + 1, [] => Or.inl (by simp)
  | j + 1, x :: xs => by
    by_cases hx : p x = true
    · rcases take_split p j xs with h | ⟨l₁, a, l₂, l₃, h1, h2, h3, h4, j2, h5⟩
      · left
        intro c hc
        rw [List.take_succ_cons] at hc
        rcases List.mem_cons.mp hc with rfl | hc
        · exact hx
        · exact h c hc
      · right
        refine ⟨x :: l₁, a, l₂, l₃, by simp [h1], by simp [h2], ?_, h4, j2, h5⟩
        intro c hc
        rcases List.mem_cons.mp hc with rfl | hc
        · exact hx
        · exact h3 c hc
    · right
      have hx' : p x = false := by
        revert hx; cases p x <;> simp
      exact ⟨[], x, xs, xs.take j, by simp, by simp, by simp, hx', j, rfl⟩

/-! ### Shapes of the regex matchers -/

theorem matchSGR_eq {s m r : List Char} (h : matchSGR s = some (m, r)) :
    ∃ ps, (∀ c ∈ ps, isClassChar c = true) ∧
      m = '\x1b' :: '[' :: (ps ++ ['m']) ∧ s = m ++ r := by
  unfold matchSGR at h
  split at h
  · rename_i c1 c2 rest
    split at h
    · rename_i hcond
      obtain ⟨rfl, rfl⟩ := hcond
      split at h
      · rename_i c3 rest2 hdrop
        split at h
        · rename_i hm
          subst hm
          simp only [Option.some.injEq, Prod.mk.injEq] at h
          obtain ⟨rfl, rfl⟩ := h
          refine ⟨rest.takeWhile isClassChar, fun c hc => mem_takeWhile hc,
            rfl, ?_⟩
          have hjoin := List.takeWhile_append_dropWhile isClassChar rest
          rw [hdrop] at hjoin
          simp only [List.cons_append, List.append_assoc,
            List.singleton_append, List.nil_append]
          rw [hjoin]
        · cases h
      · cases h
    · cases h
  · cases h

theorem matchOSC8_eq {s m r : List Char} (h : matchOSC8 s = some (m, r)) :
    ∃ ps, (∀ c ∈ ps, notEsc c = true) ∧
      m = '\x1b' :: ']' :: '8' :: ';' :: ';' :: (ps ++ ['\x1b', '\\']) ∧
      s = m ++ r := by
  unfold matchOSC8 at h
  split at h
  · rename_i c1 c2 c3 c4 c5 rest
    split at h
    · rename_i hcond
      obtain ⟨rfl, rfl, rfl, rfl, rfl⟩ := hcond
      split at h
      · rename_i d1 d2 rest2 hdrop
        split at h
        · rename_i hd
          obtain ⟨rfl, rfl⟩ := hd
          simp only [Option.some.injEq, Prod.mk.injEq] at h
          obtain ⟨rfl, rfl⟩ := h
          refine ⟨rest.takeWhile notEsc, fun c hc => mem_takeWhile hc,
            rfl, ?_⟩
          have hjoin := List.takeWhile_append_dropWhile notEsc rest
          rw [hdrop] at hjoin
          simp only [List.cons_append, List.append_assoc,
            List.singleton_append, List.nil_append]
          rw [hjoin]
        · cases h
      · cases h
    · cases h
  · cases h

theorem tryMatch_eq {s m r : List Char} (h : tryMatch s = some (m, r)) :
    s = m ++ r ∧ 3 ≤ m.length ∧ m.head? = some '\x1b' := by
  unfold tryMatch at h
  split at h
  · rename_i v hS
    injection h with h
    subst h
    obtain ⟨ps, _, hm, hs⟩ := matchSGR_eq hS
    subst hm
    refine ⟨hs, ?_, rfl⟩
    simp only [List.length_cons, List.length_append]
    omega
  · obtain ⟨ps, _, hm, hs⟩ := matchOSC8_eq h
    subst hm
    refine ⟨hs, ?_, rfl⟩
    simp only [List.length_cons, List.length_append]
    omega

/-! ### A match matches again wherever it appears at the head -/

theorem matchSGR_self (ps X : List Char)
    (hps : ∀ c ∈ ps, isClassChar c = true) :
    matchSGR ('\x1b' :: '[' :: (ps ++ 'm' :: X))
      = some ('\x1b' :: '[' :: (ps ++ ['m']), X) := by
  obtain ⟨htake, hdrop⟩ := takeDrop_exact ps 'm' X hps (by decide)
  simp [matchSGR, hdrop, htake]

theorem matchOSC8_self (ps X : List Char)
    (hps : ∀ c ∈ ps, notEsc c = true) :
    matchOSC8 ('\x1b' :: ']' :: '8' :: ';' :: ';'
        :: (ps ++ '\x1b' :: '\\' :: X))
      = some ('\x1b' :: ']' :: '8' :: ';' :: ';'
        :: (ps ++ ['\x1b', '\\']), X) := by
  obtain ⟨htake, hdrop⟩ := takeDrop_exact ps '\x1b' ('\\' :: X) hps (by decide)
  simp [matchOSC8, hdrop, htake]

theorem matchSGR_bracket_none (t : List Char) :
    matchSGR ('\x1b' :: ']' :: t) = none := by
  simp [matchSGR]

theorem tryMatch_self {s m r : List Char} (h : tryMatch s = some (m, r)) :
    ∀ X, tryMatch (m ++ X) = some (m, X) := by
  intro X
  unfold tryMatch at h ⊢
  split at h
  · rename_i v hS
    injection h with h
    subst h
    obtain ⟨ps, hps, hm, _⟩ := matchSGR_eq hS
    subst hm
    rw [show ('\x1b' :: '[' :: (ps ++ ['m'])) ++ X
        = '\x1b' :: '[' :: (ps ++ 'm' :: X) by simp]
    rw [matchSGR_self ps X hps]
  · obtain ⟨ps, hps, hm, _⟩ := matchOSC8_eq h
    subst hm
    rw [show ('\x1b' :: ']' :: '8' :: ';' :: ';' :: (ps ++ ['\x1b', '\\'])) ++ X
        = '\x1b' :: ']' :: ('8' :: ';' :: ';' :: (ps ++ '\x1b' :: '\\' :: X))
      by simp]
    rw [matchSGR_bracket_none, matchOSC8_self ps X hps]

/-! ### Single steps and fuel invariance of the strip scan -/

theorem stripGo_nil : ∀ f : Nat, stripGo f [] = []
  | 0 => rfl
  | _ + 1 => rfl

theorem stripGo_fuel : ∀ (f g : Nat) (s : List Char),
    s.length ≤ f → s.length ≤ g → stripGo f s = stripGo g s
  | 0, g, s, hf, _ => by
    have : s = [] := by
      cases s with
      | nil => rfl
      | cons c t => simp at hf
    subst this
    rw [stripGo_nil, stripGo_nil]
  | f + 1, g, [], _, _ => by rw [stripGo_nil, stripGo_nil]
  | f + 1, 0, c :: rest, hf, hg => by simp at hg
  | f + 1, g + 1, c :: rest, hf, hg => by
    simp only [stripGo]
    cases htm : tryMatch (c :: rest) with
    | some v =>
      obtain ⟨m, r⟩ := v
      obtain ⟨hs, hm, _⟩ := tryMatch_eq htm
      have hr : r.length + m.length = rest.length + 1 := by
        have := congrArg List.length hs
        simp only [List.length_cons, List.length_append] at this
        omega
      simp only [List.length_cons] at hf hg
      exact stripGo_fuel f g r (by omega) (by omega)
    | none =>
      simp only [List.length_cons] at hf hg
      rw [stripGo_fuel f g rest (by omega) (by omega)]

theorem stripAnsi_cons_match {x : Char} {t m r : List Char}
    (h : tryMatch (x :: t) = some (m, r)) :
    stripAnsi (x :: t) = stripAnsi r := by
  obtain ⟨hs, hm, _⟩ := tryMatch_eq h
  have hlen : r.length ≤ t.length := by
    have := congrArg List.length hs
    simp only [List.length_cons, List.length_append] at this
    omega
  unfold stripAnsi
  simp only [List.length_cons, stripGo, h]
  exact stripGo_fuel t.length r.length r hlen (le_refl _)

theorem stripAnsi_cons_nomatch {x : Char} {t : List Char}
    (h : tryMatch (x :: t) = none) :
    stripAnsi (x :: t) = x :: stripAnsi t := by
  unfold stripAnsi
  simp only [List.length_cons, stripGo, h]

theorem stripAnsi_append_match {s₀ m r₀ : List Char}
    (h : tryMatch s₀ = some (m, r₀)) (X : List Char) :
    stripAnsi (m ++ X) = stripAnsi X := by
  have hm := tryMatch_self h X
  obtain ⟨_, hlen, hhead⟩ := tryMatch_eq h
  cases m with
  | nil => cases hhead
  | cons c m' =>
    rw [List.cons_append]
    rw [stripAnsi_cons_match (by rw [← List.cons_append]; exact hm)]

/-! ### Claim C9 -/

theorem stripAnsi_no_esc : ∀ {t : List Char}, '\x1b' ∉ t →
    stripAnsi t = t := by
  intro t
  induction t with
  | nil => intro _; rfl
  | cons c rest ih =>
    intro h
    cases htm : tryMatch (c :: rest) with
    | some v =>
      obtain ⟨m, r⟩ := v
      obtain ⟨hs, _, hhead⟩ := tryMatch_eq htm
      exfalso
      apply h
      have : m.head? = some c := by
        cases m with
        | nil => cases hhead
        | cons a m' =>
          simp only [List.cons_append, List.cons.injEq] at hs
          simp [hs.1]
      rw [this] at hhead
      injection hhead with hh
      rw [hh]
      exact List.mem_cons_self _ rest
    | none =>
      rw [stripAnsi_cons_nomatch htm]
      have : '\x1b' ∉ rest := fun hx => h (List.mem_cons_of_mem c hx)
      rw [ih this]

/-- **C9, counterexample.** Removing the reset sequence from
`"\x1b[\x1b[0m31m"` splices the surrounding characters into the new escape
sequence `"\x1b[31m"`, which a second pass removes: one pass of `stripAnsi`
is not idempotent. -/
theorem claim_C9_counterexample :
    stripAnsi (stripAnsi ['\x1b', '[', '\x1b', '[', '0', 'm', '3', '1', 'm'])
      ≠ stripAnsi ['\x1b', '[', '\x1b', '[', '0', 'm', '3', '1', 'm'] := by
  decide

/-- **C9 (amended).** One pass of `stripAnsi` is idempotent on any string
whose single-pass result contains no remaining escape character; in
general removing a span can splice surrounding characters into a new escape
sequence, which only a further pass removes. -/
theorem claim_C9_amended (s : List Char)
    (h : '\x1b' ∉ stripAnsi s) :
    stripAnsi (stripAnsi s) = stripAnsi s :=
  stripAnsi_no_esc h

/-- **C9, witness inputs.** -/
theorem claim_C9_witness :
    '\x1b' ∉ stripAnsi ['\x1b', '[', '3', '1', 'm', 'o', 'k'] ∧
    stripAnsi (stripAnsi ['\x1b', '[', '3', '1', 'm', 'o', 'k'])
      = stripAnsi ['\x1b', '[', '3', '1', 'm', 'o', 'k'] :=
  ⟨by decide, claim_C9_amended _ (by decide)⟩

/-! ### A failed match keeps failing after truncation with an
`ESC-[`/`ESC-]`-headed continuation.

The truncated body is a prefix `rest.take k` of the original text followed
by the appended close/reset sequences, both of which start with `ESC`
followed by `[` or `]`.  These lemmas show that a position at which the
scan found no match in the original text still finds none in the truncated
output: any attempt that reads past the prefix dies on that `ESC`. -/

theorem take_cons_inv {rest T' : List Char} {t : Char} {k : Nat}
    (h : rest.take k = t :: T') :
    ∃ rest' k', rest = t :: rest' ∧ T' = rest'.take k' := by
  cases k with
  | zero => simp at h
  | succ k =>
    cases rest with
    | nil => simp at h
    | cons r rest' =>
      rw [List.take_succ_cons] at h
      injection h with h1 h2
      subst h1
      exact ⟨rest', k, rfl, h2.symm⟩

theorem matchSGR_esc2 (c : Char) (u : List Char) :
    matchSGR (c :: '\x1b' :: u) = none := by
  simp only [matchSGR]
  rw [if_neg]
  rintro ⟨-, h2⟩
  exact absurd h2 (by decide)

theorem matchOSC8_esc2 (c : Char) : ∀ u, matchOSC8 (c :: '\x1b' :: u) = none
  | [] => rfl
  | [_] => rfl
  | [_, _] => rfl
  | _ :: _ :: _ :: _ => by
    simp only [matchOSC8]
    rw [if_neg]
    rintro ⟨-, h2, -⟩
    exact absurd h2 (by decide)

theorem matchOSC8_esc3 (c r0 : Char) :
    ∀ u, matchOSC8 (c :: r0 :: '\x1b' :: u) = none
  | [] => rfl
  | [_] => rfl
  | _ :: _ :: _ => by
    simp only [matchOSC8]
    rw [if_neg]
    rintro ⟨-, -, h3, -⟩
    exact absurd h3 (by decide)

theorem matchOSC8_esc4 (c r0 r1 : Char) :
    ∀ u, matchOSC8 (c :: r0 :: r1 :: '\x1b' :: u) = none
  | [] => rfl
  | _ :: _ => by
    simp only [matchOSC8]
    rw [if_neg]
    rintro ⟨-, -, -, h4, -⟩
    exact absurd h4 (by decide)

theorem matchOSC8_esc5 (c r0 r1 r2 : Char) (u : List Char) :
    matchOSC8 (c :: r0 :: r1 :: r2 :: '\x1b' :: u) = none := by
  simp only [matchOSC8]
  rw [if_neg]
  rintro ⟨-, -, -, -, h5⟩
  exact absurd h5 (by decide)

theorem matchSGR_k2 {c : Char} {rest : List Char}
    (h : matchSGR (c :: rest) = none) (k : Nat) (b : Char)
    (zs : List Char) :
    matchSGR (c :: (rest.take k ++ '\x1b' :: b :: zs)) = none := by
  rcases hT : rest.take k with - | ⟨t0, T1⟩
  · rw [List.nil_append]
    exact matchSGR_esc2 c (b :: zs)
  rw [List.cons_append]
  obtain ⟨rest1, k1, hrest, hT1⟩ := take_cons_inv hT
  subst hrest
  subst hT1
  by_cases hcon : c = '\x1b' ∧ t0 = '['
  · obtain ⟨rfl, rfl⟩ := hcon
    rcases take_split isClassChar k1 rest1 with hall |
      ⟨l₁, a, l₂, l₃, hxs, htk, hl₁, ha, j2, hl₃⟩
    · simp only [matchSGR, and_self, if_true]
      rw [List.dropWhile_append_of_pos hall]
      have hS : List.dropWhile isClassChar ('\x1b' :: b :: zs)
          = '\x1b' :: b :: zs := by
        rw [List.dropWhile_cons]
        simp [isClassChar]
      rw [hS]
      simp
    · have hnm : ¬ (a = 'm') := by
        intro hm
        subst hm
        rw [hxs] at h
        simp only [matchSGR, and_self, if_true] at h
        rw [(takeDrop_exact l₁ 'm' l₂ hl₁ ha).2] at h
        simp at h
      simp only [matchSGR, and_self, if_true]
      rw [htk, List.append_assoc, List.cons_append,
        (takeDrop_exact l₁ a (l₃ ++ '\x1b' :: b :: zs) hl₁ ha).2]
      simp [hnm]
  · rcases hu : List.take k1 rest1 ++ '\x1b' :: b :: zs with - | ⟨u0, u'⟩
    · simp at hu
    · simp only [matchSGR]
      rw [if_neg hcon]

theorem matchOSC8_k2 {c : Char} {rest : List Char}
    (h : matchOSC8 (c :: rest) = none) (k : Nat) (b : Char)
    (zs : List Char) (hb : b = '[' ∨ b = ']') :
    matchOSC8 (c :: (rest.take k ++ '\x1b' :: b :: zs)) = none := by
  have hbne : ¬ (b = '\\') := by
    rcases hb with rfl | rfl <;> decide
  rcases hT : rest.take k with - | ⟨t0, T1⟩
  · rw [List.nil_append]
    exact matchOSC8_esc2 c (b :: zs)
  rw [List.cons_append]
  obtain ⟨rest1, k1, hrest, hT1⟩ := take_cons_inv hT
  subst hrest
  subst hT1
  rcases hT1 : rest1.take k1 with - | ⟨t1, T2⟩
  · rw [List.nil_append]
    exact matchOSC8_esc3 c t0 (b :: zs)
  rw [List.cons_append]
  obtain ⟨rest2, k2, hrest, hT2⟩ := take_cons_inv hT1
  subst hrest
  subst hT2
  rcases hT2 : rest2.take k2 with - | ⟨t2, T3⟩
  · rw [List.nil_append]
    exact matchOSC8_esc4 c t0 t1 (b :: zs)
  rw [List.cons_append]
  obtain ⟨rest3, k3, hrest, hT3⟩ := take_cons_inv hT2
  subst hrest
  subst hT3
  rcases hT3 : rest3.take k3 with - | ⟨t3, T4⟩
  · rw [List.nil_append]
    exact matchOSC8_esc5 c t0 t1 t2 (b :: zs)
  rw [List.cons_append]
  obtain ⟨rest4, k4, hrest, hT4⟩ := take_cons_inv hT3
  subst hrest
  subst hT4
  by_cases hcon : c = '\x1b' ∧ t0 = ']' ∧ t1 = '8' ∧ t2 = ';' ∧ t3 = ';'
  · obtain ⟨rfl, rfl, rfl, rfl, rfl⟩ := hcon
    rcases take_split notEsc k4 rest4 with hall |
      ⟨l₁, a, l₂, l₃, hxs, htk, hl₁, ha, j2, hl₃⟩
    · simp only [matchOSC8, and_self, if_true]
      rw [List.dropWhile_append_of_pos hall]
      have hS : List.dropWhile notEsc ('\x1b' :: b :: zs)
          = '\x1b' :: b :: zs := by
        rw [List.dropWhile_cons]
        simp [notEsc]
      rw [hS]
      simp [hbne]
    · have haesc : a = '\x1b' := by
        have hbeq : (a == '\x1b') = true := by
          revert ha
          unfold notEsc
          cases a == '\x1b' <;> simp
        exact eq_of_beq hbeq
      subst haesc
      simp only [matchOSC8, and_self, if_true]
      rw [htk, List.append_assoc, List.cons_append,
        (takeDrop_exact l₁ '\x1b' (l₃ ++ '\x1b' :: b :: zs) hl₁ ha).2]
      subst hl₃
      cases l₂ with
      | nil =>
        simp only [List.take_nil, List.nil_append]
        simp
      | cons y l₂x =>
        have hy : ¬ (y = '\\') := by
          intro hy
          subst hy
          rw [hxs] at h
          simp only [matchOSC8, and_self, if_true] at h
          rw [(takeDrop_exact l₁ '\x1b' ('\\' :: l₂x) hl₁ ha).2] at h
          simp at h
        cases j2 with
        | zero =>
          simp only [List.take_zero, List.nil_append]
          simp
        | succ j2x =>
          rw [List.take_succ_cons, List.cons_append]
          simp [hy]
  · simp only [matchOSC8]
    rw [if_neg hcon]

theorem tryMatch_k2 {c : Char} {rest : List Char}
    (h : tryMatch (c :: rest) = none) (k : Nat) (b : Char)
    (zs : List Char) (hb : b = '[' ∨ b = ']') :
    tryMatch (c :: (rest.take k ++ '\x1b' :: b :: zs)) = none := by
  unfold tryMatch at h ⊢
  have hS : matchSGR (c :: rest) = none := by
    cases hmS : matchSGR (c :: rest) with
    | some v =>
      rw [hmS] at h
      cases h
    | none => rfl
  rw [hS] at h
  rw [matchSGR_k2 hS k b zs]
  exact matchOSC8_k2 h k b zs hb

/-! ### Structure of the truncation scan -/

theorem take_len_append : ∀ (m r : List Char) (k : Nat),
    (m ++ r).take (m.length + k) = m ++ r.take k
  | [], r, k => by simp
  | c :: m, r, k => by
    simp only [List.cons_append, List.length_cons]
    rw [Nat.add_right_comm, List.take_succ_cons, take_len_append m r k]

/-- The emitted body of the truncation scan is a prefix of its input: every
character and every matched sequence is copied verbatim, in order. -/
theorem truncGo_body_take (target : Int) :
    ∀ (fuel : Nat) (rem : List Char) (count : Int) (hyp : Bool),
      ∃ k, (truncGo target fuel rem count hyp).body = rem.take k
  | 0, rem, count, hyp => ⟨0, by simp [truncGo]⟩
  | fuel + 1, [], count, hyp => ⟨0, by simp [truncGo]⟩
  | fuel + 1, c :: rest, count, hyp => by
    by_cases hcnt : count < target
    · cases htm : tryMatch (c :: rest) with
      | some v =>
        obtain ⟨m, r⟩ := v
        obtain ⟨hk, hm⟩ : (c :: rest = m ++ r) ∧ 3 ≤ m.length := by
          have := tryMatch_eq htm
          exact ⟨this.1, this.2.1⟩
        obtain ⟨k, hbody⟩ := truncGo_body_take target fuel r count
          (if m.take 5 = osc8Head ∧ 6 < m.length then true
            else if m = closeSeq then false else hyp)
        refine ⟨m.length + k, ?_⟩
        simp only [truncGo, hcnt, if_true, htm]
        rw [hk, take_len_append, hbody]
      | none =>
        obtain ⟨k, hbody⟩ := truncGo_body_take target fuel rest (count + 1) hyp
        refine ⟨k + 1, ?_⟩
        simp only [truncGo, hcnt, if_true, htm]
        rw [List.take_succ_cons, hbody]
    · exact ⟨0, by simp [truncGo, hcnt]⟩

/-- Each kept character adds one to the count, which never passes
`target`. -/
theorem truncGo_kept_len (target : Int) :
    ∀ (fuel : Nat) (rem : List Char) (count : Int) (hyp : Bool),
      count ≤ target →
      ((truncGo target fuel rem count hyp).kept.length : Int)
        ≤ target - count
  | 0, rem, count, hyp, hle => by simp [truncGo]; omega
  | fuel + 1, [], count, hyp, hle => by simp [truncGo]; omega
  | fuel + 1, c :: rest, count, hyp, hle => by
    by_cases hcnt : count < target
    · cases htm : tryMatch (c :: rest) with
      | some v =>
        obtain ⟨m, r⟩ := v
        have ih := truncGo_kept_len target fuel r count
          (if m.take 5 = osc8Head ∧ 6 < m.length then true
            else if m = closeSeq then false else hyp) hle
        simp only [truncGo, hcnt, if_true, htm]
        exact ih
      | none =>
        have ih := truncGo_kept_len target fuel rest (count + 1) hyp
          (by omega)
        simp only [truncGo, hcnt, if_true, htm, List.length_cons]
        push_cast
        omega
    · simp [truncGo, hcnt]
      omega

/-- Every kept character occurs in the input. -/
theorem truncGo_kept_mem (target : Int) :
    ∀ (fuel : Nat) (rem : List Char) (count : Int) (hyp : Bool) (c : Char),
      c ∈ (truncGo target fuel rem count hyp).kept → c ∈ rem
  | 0, rem, count, hyp, c, h => by simp [truncGo] at h
  | fuel + 1, [], count, hyp, c, h => by simp [truncGo] at h
  | fuel + 1, x :: rest, count, hyp, c, h => by
    by_cases hcnt : count < target
    · cases htm : tryMatch (x :: rest) with
      | some v =>
        obtain ⟨m, r⟩ := v
        simp only [truncGo, hcnt, if_true, htm] at h
        have hmem := truncGo_kept_mem target fuel r count _ c h
        have hk : x :: rest = m ++ r := (tryMatch_eq htm).1
        rw [hk]
        exact List.mem_append_right m hmem
      | none =>
        simp only [truncGo, hcnt, if_true, htm, List.mem_cons] at h
        rcases h with rfl | h
        · exact List.mem_cons_self c rest
        · exact List.mem_cons_of_mem x
            (truncGo_kept_mem target fuel rest (count + 1) hyp c h)
    · simp [truncGo, hcnt] at h

/-- The central lemma: stripping the truncated body followed by an
`ESC-[`/`ESC-]`-headed suffix yields exactly the kept plain characters
followed by the stripped suffix. -/
theorem truncGo_strip (target : Int) (b : Char) (zs : List Char)
    (hb : b = '[' ∨ b = ']') :
    ∀ (fuel : Nat) (rem : List Char) (count : Int) (hyp : Bool),
      rem.length ≤ fuel →
      stripAnsi ((truncGo target fuel rem count hyp).body
          ++ '\x1b' :: b :: zs)
        = (truncGo target fuel rem count hyp).kept
          ++ stripAnsi ('\x1b' :: b :: zs)
  | 0, rem, count, hyp, hfuel => by simp [truncGo]
  | fuel + 1, [], count, hyp, hfuel => by simp [truncGo]
  | fuel + 1, c :: rest, count, hyp, hfuel => by
    by_cases hcnt : count < target
    · cases htm : tryMatch (c :: rest) with
      | some v =>
        obtain ⟨m, r⟩ := v
        obtain ⟨hk, hm, _⟩ := tryMatch_eq htm
        have hrlen : r.length ≤ fuel := by
          have := congrArg List.length hk
          simp only [List.length_cons, List.length_append] at this hfuel
          omega
        have ih := truncGo_strip target b zs hb fuel r count
          (if m.take 5 = osc8Head ∧ 6 < m.length then true
            else if m = closeSeq then false else hyp) hrlen
        simp only [truncGo, hcnt, if_true, htm]
        rw [List.append_assoc, stripAnsi_append_match htm, ih]
      | none =>
        have ih := truncGo_strip target b zs hb fuel rest (count + 1) hyp
          (by simp only [List.length_cons] at hfuel; omega)
        obtain ⟨k, hbody⟩ := truncGo_body_take target fuel rest (count + 1) hyp
        have hnone : tryMatch (c :: ((truncGo target fuel rest (count + 1)
            hyp).body ++ '\x1b' :: b :: zs)) = none := by
          rw [hbody]
          exact tryMatch_k2 htm k b zs hb
        simp only [truncGo, hcnt, if_true, htm]
        rw [List.cons_append, stripAnsi_cons_nomatch hnone, ih,
          List.cons_append]
    · simp [truncGo, hcnt]

/-- A list of characters each at most one cell wide shows at most one cell
per character. -/
theorem sumW_le_len : ∀ (l : List Char), (∀ c ∈ l, charWidth c ≤ 1) →
    (l.map charWidth).sum ≤ (l.length : Int)
  | [], _ => by simp
  | c :: t, h => by
    simp only [List.map_cons, List.sum_cons, List.length_cons]
    have h1 := h c (List.mem_cons_self c t)
    have h2 := sumW_le_len t (fun x hx => h x (List.mem_cons_of_mem c hx))
    push_cast
    omega

/-- The appended hyperlink close sequence is itself a full OSC-8 match. -/
theorem tryMatch_closeSeq : tryMatch closeSeq = some (closeSeq, []) := by
  decide

/-- The appended style reset is itself a full SGR match. -/
theorem tryMatch_resetSeq : tryMatch resetSeq = some (resetSeq, []) := by
  decide

/-- In the truncating branch, `truncateText` emits the loop's body followed
by the optional close, the reset and the ellipsis. -/
theorem truncateText_else {text : List Char} {width : Int}
    (ellipsis : List Char) (h : ¬ displayLength text ≤ width) :
    truncateText text width ellipsis =
      (truncGo (max 0 (width - displayLength ellipsis)) text.length text 0
          false).body
        ++ ((if (truncGo (max 0 (width - displayLength ellipsis)) text.length
              text 0 false).inHyp then closeSeq else [])
          ++ (resetSeq ++ ellipsis)) := by
  simp [truncateText, h]

/-- C3. The claim fails for wide characters: the loop counts
`displayCount++` once per code unit while a CJK character occupies two
cells, so both the final display width and the kept prefix's cell count
can exceed their stated bounds. Ten U+4E00 at width 8 with a one-cell
ellipsis keep 7 characters (14 cells) and render at 15 cells. -/
theorem claim_C3_counterexample :
    displayLength ['…'] ≤ (8 : Int) ∧
    ¬ displayLength
        (truncateText (List.replicate 10 '一') 8 ['…']) ≤ 8 ∧
    ¬ (((truncGo (max 0 ((8 : Int) - displayLength ['…']))
          (List.replicate 10 '一').length (List.replicate 10 '一') 0
          false).kept.map charWidth).sum
        ≤ max 0 ((8 : Int) - displayLength ['…'])) := by
  decide

/-- C3 (amended). When every character of the text is at most one cell
wide (so the loop's per-code-unit count agrees with the display width) and
the ellipsis fits in the width, the truncated result's display width is at
most `width` and the kept prefix's cell count is at most
`width - displayLength ellipsis`. -/
theorem claim_C3_amended (text ellipsis : List Char) (width : Int)
    (hnar : ∀ c ∈ text, charWidth c ≤ 1)
    (hell : displayLength ellipsis ≤ width) :
    displayLength (truncateText text width ellipsis) ≤ width ∧
    (((truncGo (max 0 (width - displayLength ellipsis)) text.length text 0
        false).kept.map charWidth).sum
      ≤ max 0 (width - displayLength ellipsis)) := by
  have hkmem := truncGo_kept_mem (max 0 (width - displayLength ellipsis))
    text.length text 0 false
  have hklen := truncGo_kept_len (max 0 (width - displayLength ellipsis))
    text.length text 0 false (le_max_left 0 _)
  have hksum := sumW_le_len _ (fun c hc => hnar c (hkmem c hc))
  have hkept : (((truncGo (max 0 (width - displayLength ellipsis))
      text.length text 0 false).kept.map charWidth).sum
        ≤ max 0 (width - displayLength ellipsis)) := by omega
  refine ⟨?_, hkept⟩
  by_cases hdl : displayLength text ≤ width
  · rw [truncateText, if_pos hdl]
    exact hdl
  · rw [truncateText_else ellipsis hdl]
    cases hH : (truncGo (max 0 (width - displayLength ellipsis)) text.length
        text 0 false).inHyp
    · rw [if_neg (by simp [hH])]
      have hrs : resetSeq ++ ellipsis
          = '\x1b' :: '[' :: (['0', 'm'] ++ ellipsis) := rfl
      rw [List.nil_append, hrs]
      unfold displayLength
      rw [truncGo_strip _ '[' _ (Or.inl rfl) text.length text 0 false
        (le_refl _)]
      rw [← hrs, List.map_append, List.sum_append,
        stripAnsi_append_match tryMatch_resetSeq ellipsis]
      rw [show ((stripAnsi ellipsis).map charWidth).sum = displayLength
        ellipsis from rfl]
      have := hkept
      omega
    · rw [if_pos (by simp [hH])]
      have hcs : closeSeq ++ (resetSeq ++ ellipsis)
          = '\x1b' :: ']'
            :: (['8', ';', ';', '\x1b', '\\'] ++ (resetSeq ++ ellipsis)) :=
        rfl
      have hrs : resetSeq ++ ellipsis
          = '\x1b' :: '[' :: (['0', 'm'] ++ ellipsis) := rfl
      rw [hcs]
      unfold displayLength
      rw [truncGo_strip _ ']' _ (Or.inr rfl) text.length text 0 false
        (le_refl _)]
      rw [← hcs, List.map_append, List.sum_append,
        stripAnsi_append_match tryMatch_closeSeq,
        stripAnsi_append_match tryMatch_resetSeq ellipsis]
      rw [show ((stripAnsi ellipsis).map charWidth).sum = displayLength
        ellipsis from rfl]
      have := hkept
      omega

/-- C3 witness: `truncateText "Hello World" 8 "…"` at a one-cell ellipsis
satisfies both amended bounds. -/
theorem claim_C3_witness :
    displayLength
        (truncateText ['H', 'e', 'l', 'l', 'o', ' ', 'W', 'o', 'r', 'l',
          'd'] 8 ['…']) ≤ 8 ∧
    (((truncGo (max 0 ((8 : Int) - displayLength ['…']))
        (['H', 'e', 'l', 'l', 'o', ' ', 'W', 'o', 'r', 'l',
          'd'] : List Char).length
        ['H', 'e', 'l', 'l', 'o', ' ', 'W', 'o', 'r', 'l', 'd'] 0
        false).kept.map charWidth).sum
      ≤ max 0 ((8 : Int) - displayLength ['…'])) :=
  claim_C3_amended _ _ 8 (by decide) (by decide)

end TuiMeasure
